import Mathlib

/-!
Shallow embedding of the music de-duplication program (`dedupe_music.py` and
`music_dedupe_gui.py`).  Strings are modelled as `List Char`, Python floats as
exact rationals (`ℚ`), the filesystem as an explicit record of file and
directory paths.  I/O boundaries (the `os.walk` discovery, the `mutagen` tag
reader, the `hashlib.md5` digest) enter as data on the modelled file records
or as function parameters; everything with decision logic is translated from
the source.
-/

namespace MusicDedupe

/-- Decimal digit, the model of the regex class `\d` (restricted to the ASCII
digits; the program's names are ASCII). -/
def isDig (c : Char) : Bool := decide (48 ≤ c.toNat ∧ c.toNat ≤ 57)

/-- Whitespace as matched by Python's `\s` on `str` and by `str.strip` /
`str.isspace`: the ASCII whitespace and the Unicode space characters. -/
def isPySpace (c : Char) : Bool :=
  decide ((9 ≤ c.toNat ∧ c.toNat ≤ 13) ∨ (28 ≤ c.toNat ∧ c.toNat ≤ 32) ∨
    c.toNat = 133 ∨ c.toNat = 160 ∨ c.toNat = 5760 ∨
    (8192 ≤ c.toNat ∧ c.toNat ≤ 8202) ∨ c.toNat = 8232 ∨ c.toNat = 8233 ∨
    c.toNat = 8239 ∨ c.toNat = 8287 ∨ c.toNat = 12288)

/-- The character class `[\s\.-_]` of the track-number regex
`^\d+[\s\.-_]+` in `normalize_title`.  Inside a Python character class,
`\.-_` is a RANGE from `'.'` (U+002E) to `'_'` (U+005F), so the class is
whitespace together with every code point from 46 to 95 — it contains the
digits, the uppercase letters, `':'`, `'['`, `']'`, `'^'`, `'_'` …, and it
does NOT contain the dash `'-'` (U+002D). -/
def isCcls (c : Char) : Bool :=
  isPySpace c || decide (46 ≤ c.toNat ∧ c.toNat ≤ 95)

/-- The character class `[-_\s]` of the separator-collapsing regex
`[-_\s]{2,}` (here `-` is first in the class, hence a literal dash). -/
def isSepC (c : Char) : Bool :=
  decide (c.toNat = 45) || decide (c.toNat = 95) || isPySpace c

/-- ASCII lower-casing of one character, the model of Python `str.lower`
(restricted to ASCII; the normalization keys of the program are ASCII):
an uppercase letter moves down by 32 code points, everything else is
unchanged. -/
def lowerC (c : Char) : Char :=
  if 65 ≤ c.toNat ∧ c.toNat ≤ 90 then Char.ofNat (c.toNat + 32) else c

/-- Python `str.lower` on a whole string. -/
def asciiLower (s : List Char) : List Char := s.map lowerC

/-- `os.path.basename`: the part of the path after the last `'/'`. -/
def basename (p : List Char) : List Char :=
  (p.reverse.takeWhile (fun c => decide (c ≠ '/'))).reverse

/-- `os.path.splitext` applied to a path with no separator (a basename):
split at the last dot, unless every character before that dot is itself a
dot (so `".bashrc"` has no extension).  Returns `(stem, extension)` with the
extension including its leading dot. -/
def splitextBase (n : List Char) : List Char × List Char :=
  let revAfter := n.reverse.takeWhile (fun c => decide (c ≠ '.'))
  if revAfter.length = n.length then (n, [])
  else
    let k := n.length - revAfter.length - 1
    if (n.take k).any (fun c => decide (c ≠ '.')) then (n.take k, n.drop k)
    else (n, [])

/-- `os.path.join(a, b)` for POSIX paths. -/
def pjoin (a b : List Char) : List Char :=
  if b.head? = some '/' then b
  else if a = [] ∨ a.getLast? = some '/' then a ++ b
  else a ++ '/' :: b

/-- The substitution `re.sub(r'^\d+[\s\.-_]+', '', name)` of
`normalize_title`.  Because the digits are themselves inside the class
`[\s\.-_]` (range 46–95), the backtracking engine strips the longest prefix
matching `\d+[class]+`: with `m` leading digits, if the character after them
is in the class the match runs through the following class run; otherwise,
when `m ≥ 2`, the last digit itself serves as the class character and
exactly the digits are stripped; a single digit followed by a non-class
character does not match. -/
def stripTrack (s : List Char) : List Char :=
  let m := (s.takeWhile isDig).length
  let rest := s.drop m
  if m = 0 then s
  else if rest.head?.any isCcls then s.drop (m + (rest.takeWhile isCcls).length)
  else if 2 ≤ m then rest
  else s

/-- Case-insensitive literal prefix test (pattern given in lowercase), the
model of matching a literal under `re.IGNORECASE`. -/
def startsWithCI (pat s : List Char) : Bool :=
  match pat, s with
  | [], _ => true
  | _ :: _, [] => false
  | p :: ps, c :: cs => decide (lowerC c = p) && startsWithCI ps cs

/-- Matching `.*?X` at the head of `l` for a closing character `X`: the
non-greedy `.*?` runs to the first `X`, and `.` does not match a newline.
Returns the number of characters consumed, the closer included. -/
def closeAfter (cl : Char) (l : List Char) : Option Nat :=
  let t := l.takeWhile (fun c => decide (c ≠ cl) && decide (c ≠ '\n'))
  if (l.drop t.length).head? = some cl then some (t.length + 1) else none

/-- Matching `.*?KW.*?\)` at the head of `l` (both `.*?` newline-free,
`KW` case-insensitive): scan for the first occurrence of the keyword from
which a `')'` is reachable, exactly as the backtracking engine does.
Returns the number of characters consumed. -/
def kwClose (kw : List Char) (l : List Char) : Option Nat :=
  match l with
  | [] => none
  | c :: rest =>
    if startsWithCI kw l then
      match closeAfter ')' (l.drop kw.length) with
      | some k => some (kw.length + k)
      | none => if c = '\n' then none else (kwClose kw rest).map (· + 1)
    else if c = '\n' then none else (kwClose kw rest).map (· + 1)

/-- First match or second: the ordered alternation of a Python regex. -/
def altOr (a b : Option Nat) : Option Nat :=
  match a with
  | some n => some n
  | none => b

/-- The five `\(...\)` alternatives of the quality-marker regex, tried in
the pattern's order: `\(Live.*?\)`, `\(Remaster(ed)?.*?\)`, `\(.*?Mix.*?\)`,
`\(.*?Version.*?\)`, `\(From.*?\)`.  `rest` is the text after the `'('`;
the returned length does not count the `'('`. -/
def parenAlt (rest : List Char) : Option Nat :=
  altOr (if startsWithCI ('l' :: 'i' :: 'v' :: 'e' :: []) rest then
           (closeAfter ')' (rest.drop 4)).map (· + 4) else none)
    (altOr (if startsWithCI ('r' :: 'e' :: 'm' :: 'a' :: 's' :: 't' :: 'e' :: 'r' :: []) rest then
              (closeAfter ')' (rest.drop 8)).map (· + 8) else none)
      (altOr (kwClose ('m' :: 'i' :: 'x' :: []) rest)
        (altOr (kwClose ('v' :: 'e' :: 'r' :: 's' :: 'i' :: 'o' :: 'n' :: []) rest)
          (if startsWithCI ('f' :: 'r' :: 'o' :: 'm' :: []) rest then
             (closeAfter ')' (rest.drop 4)).map (· + 4) else none))))

/-- One attempted match, at the head of `s`, of the marker regex
`\(Live.*?\)|\(Remaster(ed)?.*?\)|\(.*?Mix.*?\)|\(.*?Version.*?\)|\(From.*?\)|\{.*?\}|\[.*?\]`
(under `re.IGNORECASE`).  Every alternative begins with `'('`, `'\x7b'` or
`'['`, so any other head character fails immediately. -/
def markerMatch (s : List Char) : Option Nat :=
  match s with
  | [] => none
  | c :: rest =>
    if c = '(' then (parenAlt rest).map (· + 1)
    else if c = Char.ofNat 123 then (closeAfter (Char.ofNat 125) rest).map (· + 1)
    else if c = '[' then (closeAfter ']' rest).map (· + 1)
    else none

/-- Fuel-driven scanner behind `removeMarkers` (the fuel, at least the
length of the text, only forces structural recursion: each step consumes
at least one character). -/
def removeMarkersF : Nat → List Char → List Char
  | _, [] => []
  | 0, s => s
  | fuel + 1, c :: rest =>
    match markerMatch (c :: rest) with
    | some n => removeMarkersF fuel (rest.drop (n - 1))
    | none => c :: removeMarkersF fuel rest

/-- `re.sub(pattern, '', name)` for the marker regex: scan left to right,
removing each leftmost non-overlapping match.  (A successful `markerMatch`
always consumes at least two characters, so dropping `n - 1` of `rest`
is dropping `n` of the whole list.) -/
def removeMarkers (s : List Char) : List Char := removeMarkersF s.length s

/-- Fuel-driven scanner behind `collapseRuns`. -/
def collapseRunsF : Nat → List Char → List Char
  | _, [] => []
  | _, c :: [] => c :: []
  | 0, s => s
  | fuel + 1, c :: d :: rest =>
    if isSepC c then
      if isSepC d then ' ' :: collapseRunsF fuel (rest.dropWhile isSepC)
      else c :: collapseRunsF fuel (d :: rest)
    else c :: collapseRunsF fuel (d :: rest)

/-- `re.sub(r'[-_\s]{2,}', ' ', name)`: every maximal run of two or more
separator characters becomes a single space; isolated separators stay. -/
def collapseRuns (s : List Char) : List Char := collapseRunsF s.length s

/-- Python `str.strip` from the left. -/
def trimLeftPy (s : List Char) : List Char := s.dropWhile isPySpace

/-- Python `str.strip` from the right. -/
def trimRightPy (s : List Char) : List Char :=
  (s.reverse.dropWhile isPySpace).reverse

/-- Python `str.strip`. -/
def stripPy (s : List Char) : List Char := trimRightPy (trimLeftPy s)

/-- `normalize_title` of `dedupe_music.py` (and the filename-fallback path
of the GUI's `MusicDedupeApp.normalize_title`): basename, drop the
extension, strip a leading track number, remove quality markers, collapse
separator runs, strip and lower-case. -/
def normalize_title (path : List Char) : List Char :=
  asciiLower (stripPy (collapseRuns (removeMarkers (stripTrack
    ((splitextBase (basename path)).1)))))

/-- A discovered audio file as the scan sees it.  `path` and `size` come
from the directory walk; `tags` is the outcome of the mutagen read in the
GUI (`none` models an exception or absent tag frames, `some (artist, title)`
a successful read, possibly of empty strings); `bitrate` is
`audio.info.bitrate` in bits per second (`none` models an exception or a
missing value). -/
structure AudioFile where
  path : List Char
  size : Nat
  tags : Option (List Char × List Char) := none
  bitrate : Option ℚ := none
deriving DecidableEq

/-- The `FORMAT_PRIORITY` table of `dedupe_music.py` (also
`DEFAULT_FORMAT_PRIORITY` of the GUI). -/
def FORMAT_PRIORITY : List (List Char × Int) :=
  [(".flac".data, 4), (".wav".data, 3), (".aiff".data, 3), (".alac".data, 3),
   (".m4a".data, 2), (".mp3".data, 1), (".wma".data, 0)]

/-- Python `dict.get(k, 0)` on an association list with distinct keys. -/
def dictGetInt (m : List (List Char × Int)) (k : List Char) : Int :=
  match m.find? (fun p => decide (p.1 = k)) with
  | some p => p.2
  | none => 0

/-- `os.path.splitext(file_path)[1].lower()`: the lowercased extension of a
path (the dot included; empty when there is none). -/
def extOfPath (p : List Char) : List Char :=
  asciiLower (splitextBase (basename p)).2

/-- `get_file_quality_score` of `dedupe_music.py`:
format weight times 1000 plus the size in KiB (float division modelled as
exact rational division). -/
def get_file_quality_score (f : AudioFile) : ℚ :=
  ((dictGetInt FORMAT_PRIORITY (extOfPath f.path) * 1000 : Int) : ℚ) +
    (f.size : ℚ) / 1024

/-- `MusicDedupeApp.get_file_quality_score`: the same formula over the
user-adjustable priority table, plus — when mutagen is available and the
extension is `.mp3` — the measured bitrate converted to kbps (a zero or
unreadable bitrate adds nothing, as in the source's truthiness test and
`except` clause). -/
def gui_get_file_quality_score (hasMutagen : Bool)
    (prio : List (List Char × Int)) (f : AudioFile) : ℚ :=
  let ext := extOfPath f.path
  let s : ℚ := ((dictGetInt prio ext * 1000 : Int) : ℚ) + (f.size : ℚ) / 1024
  if hasMutagen && decide (ext = ".mp3".data) then
    match f.bitrate with
    | some b => if b = 0 then s else s + b / 1000
    | none => s
  else s

/-- Stable insertion into a list sorted by descending score: the new
element goes before the first member whose score is less than or equal to
its own.  Used with `isortDesc` below it reproduces
`scored_files.sort(key=lambda x: x[1], reverse=True)`, Python's stable
descending sort (equal scores keep their original order). -/
def insDesc {α : Type} (score : α → ℚ) (x : α) : List α → List α
  | [] => [x]
  | y :: ys => if score y ≤ score x then x :: y :: ys else y :: insDesc score x ys

/-- Stable sort by descending score (insertion sort, processed from the
right so the earliest element is inserted last and wins ties). -/
def isortDesc {α : Type} (score : α → ℚ) : List α → List α
  | [] => []
  | x :: xs => insDesc score x (isortDesc score xs)

/-- One resolved duplicate group as built by `find_duplicates` /
`run_scan`: the dictionary `{'keeper': …, 'duplicates': …, 'scores': …}`,
with the scores dictionary modelled as the tabulation of the score function
on the sorted members. -/
structure Resolved where
  keeper : AudioFile
  duplicates : List AudioFile
  scores : List (AudioFile × ℚ)
deriving DecidableEq

/-- The resolution step shared by `find_duplicates` and `run_scan`: sort
the group's members by descending score, take the head as keeper and the
tail as duplicates (`none` only on an empty group, which the callers never
produce). -/
def resolve_group (score : AudioFile → ℚ) (files : List AudioFile) :
    Option Resolved :=
  match isortDesc score files with
  | [] => none
  | k :: ds => some ⟨k, ds, (k :: ds).map (fun f => (f, score f))⟩

/-- Fuel-driven recursion behind `firstDedup`. -/
def firstDedupF {α : Type} [DecidableEq α] : Nat → List α → List α
  | _, [] => []
  | 0, l => l
  | fuel + 1, k :: ks => k :: firstDedupF fuel (ks.filter (fun x => decide (x ≠ k)))

/-- The key list of a Python dict built by insertion: the distinct values
in order of first occurrence. -/
def firstDedup {α : Type} [DecidableEq α] (l : List α) : List α :=
  firstDedupF l.length l

/-- The grouping-and-filtering block shared by `find_duplicates` and
`run_scan`: `songs = defaultdict(list); songs[key].append(path)` followed
by `duplicates = {name: files for name, files in songs.items() if
len(files) > 1}`.  A Python dict's entries sit in first-insertion order
and the group of a key is exactly the discovered files with that key, in
discovery order. -/
def groupEntries (key : AudioFile → List Char) (files : List AudioFile) :
    List (List Char × List AudioFile) :=
  (firstDedup (files.map key)).filterMap (fun k =>
    let g := files.filter (fun f => decide (key f = k))
    if 1 < g.length then some (k, g) else none)

/-- `find_duplicates` of `dedupe_music.py`, taking the list of discovered
files (the `os.walk` collection is the external input) and the
`similarity_threshold` argument, which the function accepts and never
uses.  Groups files by normalized title, keeps groups with more than one
member, and resolves each. -/
def find_duplicates (threshold : ℚ) (files : List AudioFile) :
    List (List Char × Resolved) :=
  let groups := groupEntries (fun f => normalize_title f.path) files
  groups.filterMap (fun kg =>
    (resolve_group get_file_quality_score kg.2).map (fun r => (kg.1, r)))

/-- `MusicDedupeApp.normalize_title`: when mutagen is present, tag use is
enabled and the extension is `.mp3` / `.flac` / `.m4a`, a successful tag
read with non-empty artist and title yields the key
`artist.lower() + " - " + title.lower()`; any read failure (`f.tags =
none`) or empty field falls back to the filename heuristics of
`normalize_title`. -/
def gui_normalize_title (hasMutagen useTags : Bool) (f : AudioFile) :
    List Char :=
  let base := basename f.path
  let ne := splitextBase base
  if hasMutagen && useTags &&
      (decide (asciiLower ne.2 = ".mp3".data) ||
       decide (asciiLower ne.2 = ".flac".data) ||
       decide (asciiLower ne.2 = ".m4a".data)) then
    match f.tags with
    | some at' =>
      if decide (at'.1 ≠ []) && decide (at'.2 ≠ []) then
        asciiLower at'.1 ++ (' ' :: '-' :: ' ' :: []) ++ asciiLower at'.2
      else
        asciiLower (stripPy (collapseRuns (removeMarkers (stripTrack ne.1))))
    | none =>
      asciiLower (stripPy (collapseRuns (removeMarkers (stripTrack ne.1))))
  else
    asciiLower (stripPy (collapseRuns (removeMarkers (stripTrack ne.1))))

/-- The re-keying `f"{name} ({size} bytes)"` of the exact-size partition. -/
def sizeKey (name : List Char) (s : Nat) : List Char :=
  name ++ (" (".data) ++ (Nat.repr s).data ++ (" bytes)".data)

/-- Assignment `d[k] = v` on a Python dict modelled as an association
list: replace in place when the key is present, append otherwise. -/
def dictInsert (k : List Char) (v : List AudioFile)
    (m : List (List Char × List AudioFile)) :
    List (List Char × List AudioFile) :=
  if m.any (fun p => decide (p.1 = k)) then
    m.map (fun p => if p.1 = k then (k, v) else p)
  else m ++ [(k, v)]

/-- One step of the inner exact-size loop: `size_groups[size]` holds the
group's files of that byte size, and subgroups with more than one member
are written into `filtered_duplicates` under the size-qualified key. -/
def sizeStep (n : List Char) (g : List AudioFile)
    (acc : List (List Char × List AudioFile)) (s : Nat) :
    List (List Char × List AudioFile) :=
  let sg := g.filter (fun f => decide (f.size = s))
  if 1 < sg.length then dictInsert (sizeKey n s) sg acc else acc

/-- The exact-size refinement of `run_scan`: rebuild `filtered_duplicates`
from every name group, partitioned by exact byte size. -/
def sizePartition (dups1 : List (List Char × List AudioFile)) :
    List (List Char × List AudioFile) :=
  dups1.foldl (fun acc ng =>
    (firstDedup (ng.2.map (fun f => f.size))).foldl (sizeStep ng.1 ng.2) acc) []

/-- `MusicDedupeApp.run_scan` on the list of discovered files: group by
the GUI normalization key, keep groups with more than one member, when
`exact_size_match` is set partition each group by exact byte size keeping
only size-subgroups of two or more (re-keyed through `sizeKey`), then
resolve every surviving group by quality.  The `threshold` read from the
slider is never consumed. -/
def run_scan (hasMutagen useTags : Bool) (threshold : ℚ) (exact : Bool)
    (prio : List (List Char × Int)) (files : List AudioFile) :
    List (List Char × Resolved) :=
  let dups1 := groupEntries (fun f => gui_normalize_title hasMutagen useTags f) files
  let dups2 := if exact then sizePartition dups1 else dups1
  dups2.filterMap (fun kg =>
    (resolve_group (gui_get_file_quality_score hasMutagen prio) kg.2).map
      (fun r => (kg.1, r)))

/-- The filesystem as the action executor sees it: the set of existing
file paths and directory paths (lists without meaningful order). -/
structure FS where
  files : List (List Char)
  dirs : List (List Char)
deriving DecidableEq

/-- `os.path.exists`. -/
def path_exists (fs : FS) (p : List Char) : Bool :=
  decide (p ∈ fs.files) || decide (p ∈ fs.dirs)

/-- Python truthiness of the `move_dir` argument: a present, non-empty
string. -/
def mvTruthy : Option (List Char) → Bool
  | some d => decide (d ≠ [])
  | none => false

/-- The collision-disambiguated move target
`os.path.join(move_dir, f"{base}_{md5(dupe)[:6]}{ext}")`: the short hash
of the duplicate's original full path inserted before the extension.
`md5hex6` abstracts `hashlib.md5(dupe.encode()).hexdigest()[:6]`. -/
def hashedTarget (md5hex6 : List Char → List Char) (d dupe : List Char) :
    List Char :=
  let se := splitextBase (basename dupe)
  pjoin d (se.1 ++ '_' :: (md5hex6 dupe ++ se.2))

/-- The move target chosen for one duplicate: the basename under the
destination, or the hash-disambiguated name when that path already
exists.  Disambiguation is attempted once; the result of `shutil.move`
onto an existing path would overwrite it. -/
def moveTarget (md5hex6 : List Char → List Char) (d dupe : List Char)
    (fs : FS) : List Char :=
  let t0 := pjoin d (basename dupe)
  if path_exists fs t0 then hashedTarget md5hex6 d dupe else t0

/-- The body of the per-duplicate loop of `process_duplicates`: report in
dry-run; otherwise move (with `shutil.move`, overwriting an existing
target) or delete, any per-file failure (a vanished source) being caught
and logged without mutating anything. -/
def processFile (md5hex6 : List Char → List Char) (dry : Bool)
    (mv : Option (List Char)) (fs : FS) (dupe : List Char) :
    FS × List (List Char) :=
  let rel := basename dupe
  if dry then
    if mvTruthy mv then
      (fs, [("[DRY RUN] Would move: ".data) ++ rel ++ (" to ".data) ++
        mv.getD []])
    else (fs, [("[DRY RUN] Would delete: ".data) ++ rel])
  else if mvTruthy mv then
    if dupe ∈ fs.files then
      let tgt := moveTarget md5hex6 (mv.getD []) dupe fs
      ({ fs with files :=
          ((fs.files.erase dupe).filter (fun p => decide (p ≠ tgt))) ++ [tgt] },
        [("Moved: ".data) ++ rel ++ (" -> ".data) ++ tgt])
    else (fs, [("Error processing ".data) ++ dupe])
  else
    if dupe ∈ fs.files then
      ({ fs with files := fs.files.erase dupe },
        [("Deleted: ".data) ++ rel])
    else (fs, [("Error processing ".data) ++ dupe])

/-- `process_duplicates` of `dedupe_music.py`: first — before any dry-run
check — `os.makedirs(move_dir)` when a truthy `move_dir` does not exist,
then the per-group, per-duplicate loop over the resolved result.  Returns
the final filesystem and the log lines. -/
def process_duplicates (md5hex6 : List Char → List Char)
    (dups : List (List Char × Resolved)) (dry : Bool)
    (mv : Option (List Char)) (fs : FS) : FS × List (List Char) :=
  let fs0 := if mvTruthy mv && !(path_exists fs (mv.getD [])) then
      { fs with dirs := fs.dirs ++ [mv.getD []] }
    else fs
  dups.foldl (fun acc kg =>
    kg.2.duplicates.foldl (fun acc2 f =>
      let r := processFile md5hex6 dry mv acc2.1 f.path
      (r.1, acc2.2 ++ r.2)) acc) (fs0, [])

/-! Concrete sample data used by witnesses and counterexamples. -/

/-- A 50 KiB `.wma` file (spec scenario B). -/
def wmaSample : AudioFile := ⟨"Track.wma".data, 51200, none, none⟩

/-- A 2000 KiB `.mp3` file (spec scenario B). -/
def mp3Sample : AudioFile := ⟨"Track.mp3".data, 2048000, none, none⟩

/-- A stand-in for the md5 digest function in concrete runs. -/
def md5stub : List Char → List Char := fun _ => "abc123".data

/-- A small filesystem: a source file, a keeper, and a destination already
holding a file named like the duplicate (spec scenario C). -/
def fsSampleC : FS :=
  ⟨["/music/track.mp3".data, "/dest/track.mp3".data, "/music/track.flac".data],
   ["/music".data, "/dest".data]⟩

/-- A resolved group whose keeper is the flac and whose single duplicate is
the mp3 of `fsSampleC`. -/
def groupSampleC : Resolved :=
  ⟨⟨"/music/track.flac".data, 3072000, none, none⟩,
   [⟨"/music/track.mp3".data, 2048000, none, none⟩], []⟩

/-- A 2 KiB `.mp3` whose normalized key is `"x"`. -/
def fileA : AudioFile := ⟨"a/x.mp3".data, 2048, none, none⟩

/-- A 1 KiB `.mp3` with the same normalized key `"x"`. -/
def fileB : AudioFile := ⟨"b/x.mp3".data, 1024, none, none⟩

/-- Another 1 KiB `.mp3` with the key `"x"` and the same size as
`fileB`. -/
def fileB2 : AudioFile := ⟨"c/x.mp3".data, 1024, none, none⟩

/-- The resolution of the group `[fileA, fileB]` under the CLI scorer. -/
def resolvedAB : Resolved :=
  ⟨fileA, [fileB],
   [(fileA, get_file_quality_score fileA), (fileB, get_file_quality_score fileB)]⟩

/-- The resolution of the size-1024 subgroup `[fileB, fileB2]` under the
GUI scorer with the default priorities and no mutagen. -/
def resolvedBB : Resolved :=
  ⟨fileB, [fileB2],
   [(fileB, gui_get_file_quality_score false FORMAT_PRIORITY fileB),
    (fileB2, gui_get_file_quality_score false FORMAT_PRIORITY fileB2)]⟩

/-- The stripping step as the claim (and §4.1 of the spec) words it:
remove one or more leading digits followed by one or more characters from
the four-element set space / period / dash / underscore, and nothing
else. -/
def stripTrackClaimed (s : List Char) : List Char :=
  let ds := s.takeWhile isDig
  let seps := (s.drop ds.length).takeWhile
    (fun c => decide (c = ' ') || decide (c = '.') || decide (c = '-') ||
      decide (c = '_'))
  if decide (ds ≠ []) && decide (seps ≠ []) then s.drop (ds.length + seps.length)
  else s

/-- What the stripping step provably does (the amended form of the claim):
remove one leading digit together with the maximal non-empty run of
class characters (`isCcls`, which contains the digits themselves) that
follows it; any name whose first character is not a digit, or whose
second character is outside the class, is left unchanged. -/
def stripTrackAmended (s : List Char) : List Char :=
  match s with
  | c0 :: c1 :: rest =>
    if isDig c0 && isCcls c1 then (c1 :: rest).dropWhile isCcls
    else c0 :: c1 :: rest
  | _ => s

/-! ## Helper lemmas about the stable descending sort -/

theorem length_dropWhile_le' (p : Char → Bool) (l : List Char) :
    (l.dropWhile p).length ≤ l.length := by
  induction l with
  | nil => simp [List.dropWhile]
  | cons a t ih =>
    simp only [List.dropWhile]
    split
    · exact Nat.le_trans ih (by simp)
    · simp



theorem perm_insDesc {α : Type} (score : α → ℚ) (x : α) (l : List α) :
    (insDesc score x l).Perm (x :: l) := by
  induction l with
  | nil => simp [insDesc]
  | cons y ys ih =>
    simp only [insDesc]
    split
    · exact List.Perm.refl _
    · exact (ih.cons y).trans (List.Perm.swap x y ys)

theorem perm_isortDesc {α : Type} (score : α → ℚ) (l : List α) :
    (isortDesc score l).Perm l := by
  induction l with
  | nil => simp [isortDesc]
  | cons x xs ih =>
    exact (perm_insDesc score x (isortDesc score xs)).trans (ih.cons x)

theorem mem_insDesc {α : Type} {score : α → ℚ} {x a : α} {l : List α} :
    a ∈ insDesc score x l ↔ a = x ∨ a ∈ l := by
  constructor
  · intro h
    have := (perm_insDesc score x l).mem_iff.1 h
    simpa using this
  · intro h
    refine (perm_insDesc score x l).mem_iff.2 ?_
    simpa using h

theorem pairwise_insDesc {α : Type} {score : α → ℚ} {x : α} {l : List α}
    (h : l.Pairwise (fun a b => score b ≤ score a)) :
    (insDesc score x l).Pairwise (fun a b => score b ≤ score a) := by
  induction l with
  | nil => simp [insDesc]
  | cons y ys ih =>
    rcases List.pairwise_cons.1 h with ⟨hy, hys⟩
    simp only [insDesc]
    split
    · rename_i hle
      refine List.pairwise_cons.2 ⟨?_, h⟩
      intro b hb
      cases hb with
      | head => exact hle
      | tail _ hb => exact le_trans (hy _ hb) hle
    · rename_i hgt
      refine List.pairwise_cons.2 ⟨?_, ih hys⟩
      intro b hb
      rcases mem_insDesc.1 hb with rfl | hb
      · exact le_of_not_le hgt
      · exact hy _ hb

theorem pairwise_isortDesc {α : Type} (score : α → ℚ) (l : List α) :
    (isortDesc score l).Pairwise (fun a b => score b ≤ score a) := by
  induction l with
  | nil => simp [isortDesc]
  | cons x xs ih => exact pairwise_insDesc ih

theorem filter_insDesc {α : Type} (score : α → ℚ) (x : α) (l : List α) (c : ℚ) :
    (insDesc score x l).filter (fun a => decide (score a = c)) =
      if score x = c then x :: l.filter (fun a => decide (score a = c))
      else l.filter (fun a => decide (score a = c)) := by
  induction l with
  | nil =>
    by_cases h : score x = c <;> simp [insDesc, h]
  | cons y ys ih =>
    simp only [insDesc]
    split
    · rename_i hle
      by_cases hx : score x = c <;> simp [List.filter_cons, hx]
    · rename_i hgt
      by_cases hx : score x = c
      · have hyc : ¬ score y = c := fun hy => hgt (by rw [hy, hx])
        simp [List.filter_cons, ih, hx, hyc]
      · by_cases hy : score y = c <;> simp [List.filter_cons, ih, hx, hy]

theorem filter_isortDesc {α : Type} (score : α → ℚ) (l : List α) (c : ℚ) :
    (isortDesc score l).filter (fun a => decide (score a = c)) =
      l.filter (fun a => decide (score a = c)) := by
  induction l with
  | nil => simp [isortDesc]
  | cons x xs ih =>
    rw [isortDesc, filter_insDesc]
    by_cases hx : score x = c <;> simp [List.filter_cons, hx, ih]

theorem resolve_group_eq_some {score : AudioFile → ℚ} {l : List AudioFile}
    {r : Resolved} (h : resolve_group score l = some r) :
    isortDesc score l = r.keeper :: r.duplicates ∧
      r.scores = (r.keeper :: r.duplicates).map (fun f => (f, score f)) := by
  unfold resolve_group at h
  rcases hs : isortDesc score l with _ | ⟨k, ds⟩
  · rw [hs] at h; cases h
  · rw [hs] at h
    cases h
    exact ⟨rfl, rfl⟩

theorem resolve_group_perm {score : AudioFile → ℚ} {l : List AudioFile}
    {r : Resolved} (h : resolve_group score l = some r) :
    (r.keeper :: r.duplicates).Perm l := by
  rw [← (resolve_group_eq_some h).1]
  exact perm_isortDesc score l

/-! ## Helper lemmas about grouping and partitioning -/

theorem mem_groupEntries {key : AudioFile → List Char} {files : List AudioFile}
    {k : List Char} {g : List AudioFile} (h : (k, g) ∈ groupEntries key files) :
    g = files.filter (fun f => decide (key f = k)) ∧ 1 < g.length := by
  unfold groupEntries at h
  rcases List.mem_filterMap.1 h with ⟨a, _, hfa⟩
  dsimp only at hfa
  split at hfa
  · rename_i hlen
    rw [Option.some_inj, Prod.mk.injEq] at hfa
    rcases hfa with ⟨rfl, rfl⟩
    exact ⟨rfl, hlen⟩
  · cases hfa

theorem mem_dictInsert {k : List Char} {v : List AudioFile}
    {m : List (List Char × List AudioFile)} {x : List Char × List AudioFile}
    (h : x ∈ dictInsert k v m) : x = (k, v) ∨ x ∈ m := by
  unfold dictInsert at h
  split at h
  · rcases List.mem_map.1 h with ⟨p, hp, hpe⟩
    by_cases hpk : p.1 = k
    · left
      rw [if_pos hpk] at hpe
      exact hpe.symm
    · right
      rw [if_neg hpk] at hpe
      exact hpe ▸ hp
  · rcases List.mem_append.1 h with h1 | h1
    · exact Or.inr h1
    · exact Or.inl (by simpa using h1)

theorem sizeStep_mem {n : List Char} {g : List AudioFile}
    {acc : List (List Char × List AudioFile)} {s : Nat}
    {x : List Char × List AudioFile} (h : x ∈ sizeStep n g acc s) :
    x ∈ acc ∨ ∃ s', x = (sizeKey n s', g.filter (fun f => decide (f.size = s'))) ∧
      1 < (g.filter (fun f => decide (f.size = s'))).length := by
  unfold sizeStep at h
  dsimp only at h
  split at h
  · rename_i hlen
    rcases mem_dictInsert h with h1 | h1
    · exact Or.inr ⟨s, h1, hlen⟩
    · exact Or.inl h1
  · exact Or.inl h

theorem foldl_sizeStep_mem {n : List Char} {g : List AudioFile} :
    ∀ (sl : List Nat) (acc : List (List Char × List AudioFile))
      (x : List Char × List AudioFile), x ∈ sl.foldl (sizeStep n g) acc →
    x ∈ acc ∨ ∃ s', x = (sizeKey n s', g.filter (fun f => decide (f.size = s'))) ∧
      1 < (g.filter (fun f => decide (f.size = s'))).length := by
  intro sl
  induction sl with
  | nil => intro acc x h; exact Or.inl h
  | cons s sl ih =>
    intro acc x h
    rw [List.foldl_cons] at h
    rcases ih _ x h with h1 | h1
    · exact sizeStep_mem h1
    · exact Or.inr h1

theorem sizePartition_mem {dups1 : List (List Char × List AudioFile)}
    {x : List Char × List AudioFile} (h : x ∈ sizePartition dups1) :
    ∃ ng ∈ dups1, ∃ s',
      x = (sizeKey ng.1 s', ng.2.filter (fun f => decide (f.size = s'))) ∧
      1 < (ng.2.filter (fun f => decide (f.size = s'))).length := by
  have main : ∀ (l : List (List Char × List AudioFile))
      (acc : List (List Char × List AudioFile)),
      x ∈ l.foldl (fun acc ng =>
        (firstDedup (ng.2.map (fun f => f.size))).foldl (sizeStep ng.1 ng.2) acc) acc →
      x ∈ acc ∨ ∃ ng ∈ l, ∃ s',
        x = (sizeKey ng.1 s', ng.2.filter (fun f => decide (f.size = s'))) ∧
        1 < (ng.2.filter (fun f => decide (f.size = s'))).length := by
    intro l
    induction l with
    | nil => intro acc hx; exact Or.inl hx
    | cons ng l ih =>
      intro acc hx
      rw [List.foldl_cons] at hx
      rcases ih _ hx with h1 | h1
      · rcases foldl_sizeStep_mem _ _ _ h1 with h2 | h2
        · exact Or.inl h2
        · exact Or.inr ⟨ng, List.mem_cons_self _ _, h2⟩
      · rcases h1 with ⟨ng', hng', hrest⟩
        exact Or.inr ⟨ng', List.mem_cons_of_mem _ hng', hrest⟩
  rcases main dups1 [] h with h1 | h1
  · cases h1
  · exact h1

theorem mem_resolveStage {score : AudioFile → ℚ}
    {dups : List (List Char × List AudioFile)} {k : List Char} {r : Resolved}
    (h : (k, r) ∈ dups.filterMap
      (fun kg => (resolve_group score kg.2).map (fun r => (kg.1, r)))) :
    ∃ g, (k, g) ∈ dups ∧ resolve_group score g = some r := by
  rcases List.mem_filterMap.1 h with ⟨kg, hkg, heq⟩
  rcases Option.map_eq_some'.1 heq with ⟨r', hr', hpair⟩
  rw [Prod.mk.injEq] at hpair
  rcases hpair with ⟨h1, rfl⟩
  refine ⟨kg.2, ?_, hr'⟩
  rw [← h1]
  exact hkg

theorem resolve_members_length {score : AudioFile → ℚ} {g : List AudioFile}
    {r : Resolved} (h : resolve_group score g = some r) :
    (r.keeper :: r.duplicates).length = g.length :=
  (resolve_group_perm h).length_eq

/-! ## C10 — the similarity threshold is never consumed -/

/-- C10: the duplicate-detection result is independent of the
similarity-threshold value: both `find_duplicates` and `run_scan` accept
the threshold and never consume it, so any two threshold values produce
identical groupings, keepers and scores. -/
theorem threshold_independent :
    (∀ (t1 t2 : ℚ) (files : List AudioFile),
        find_duplicates t1 files = find_duplicates t2 files) ∧
    (∀ (hm ut : Bool) (t1 t2 : ℚ) (exact : Bool)
        (prio : List (List Char × Int)) (files : List AudioFile),
        run_scan hm ut t1 exact prio files = run_scan hm ut t2 exact prio files) :=
  ⟨fun _ _ _ => rfl, fun _ _ _ _ _ _ _ => rfl⟩

/-! ## C4 — dry-run and filesystem mutation -/

/-- C4: contrary to the claim (and to the script's own `--dry-run` help
text), a dry-run pass is not always mutation-free: `process_duplicates`
calls `os.makedirs(move_dir)` before examining `dry_run`, so a dry run
with a move destination that does not yet exist creates that directory
(third conjunct), even though no file is ever deleted or moved
(fourth conjunct) and a dry run in delete mode or with an existing
destination leaves the filesystem exactly as it was (last two
conjuncts). -/
theorem dry_run_creates_missing_destination_dir :
    (process_duplicates md5stub [("track".data, groupSampleC)] true
        (some "/newdest".data) fsSampleC).1 ≠ fsSampleC ∧
    (process_duplicates md5stub [("track".data, groupSampleC)] true
        (some "/newdest".data) fsSampleC).1.dirs =
      fsSampleC.dirs ++ ["/newdest".data] ∧
    (process_duplicates md5stub [("track".data, groupSampleC)] true
        (some "/newdest".data) fsSampleC).1.files = fsSampleC.files ∧
    (process_duplicates md5stub [("track".data, groupSampleC)] true
        none fsSampleC).1 = fsSampleC ∧
    (process_duplicates md5stub [("track".data, groupSampleC)] true
        (some "/dest".data) fsSampleC).1 = fsSampleC := by
  refine ⟨?_, ?_, ?_, ?_, ?_⟩ <;> decide

/-! ## C2 — the quality-score formula -/

/-- C2: the quality score is the format-priority weight of the lowercased
extension (0 when absent from the table) times 1000, plus the byte size
divided by 1024; the GUI variant adds, only for `.mp3` with mutagen
available and a readable non-zero bitrate, the bitrate in kbps.  On a
group holding a 50 KiB `.wma` and a 2000 KiB `.mp3` with no bitrate
information, the `.mp3` is the keeper. -/
theorem quality_score_formula :
    (∀ f : AudioFile, get_file_quality_score f =
        ((dictGetInt FORMAT_PRIORITY (extOfPath f.path) : ℚ)) * 1000 +
          (f.size : ℚ) / 1024) ∧
    (∀ (hm : Bool) (prio : List (List Char × Int)) (f : AudioFile),
        f.bitrate = none →
        gui_get_file_quality_score hm prio f =
          ((dictGetInt prio (extOfPath f.path) : ℚ)) * 1000 +
            (f.size : ℚ) / 1024) ∧
    (∀ (prio : List (List Char × Int)) (f : AudioFile) (b : ℚ),
        f.bitrate = some b → b ≠ 0 → extOfPath f.path = ".mp3".data →
        gui_get_file_quality_score true prio f =
          ((dictGetInt prio (extOfPath f.path) : ℚ)) * 1000 +
            (f.size : ℚ) / 1024 + b / 1000) ∧
    get_file_quality_score wmaSample = 50 ∧
    get_file_quality_score mp3Sample = 3000 ∧
    (find_duplicates (9 / 10) [wmaSample, mp3Sample]).map
        (fun kg => (kg.1, kg.2.keeper)) = [("track".data, mp3Sample)] := by
  have hwma : get_file_quality_score wmaSample = 50 := by
    have h1 : extOfPath wmaSample.path = ".wma".data := by decide
    have h2 : dictGetInt FORMAT_PRIORITY ".wma".data = 0 := by decide
    rw [get_file_quality_score, h1, h2]
    norm_num [wmaSample]
  have hmp3 : get_file_quality_score mp3Sample = 3000 := by
    have h1 : extOfPath mp3Sample.path = ".mp3".data := by decide
    have h2 : dictGetInt FORMAT_PRIORITY ".mp3".data = 1 := by decide
    rw [get_file_quality_score, h1, h2]
    norm_num [mp3Sample]
  refine ⟨?_, ?_, ?_, hwma, hmp3, ?_⟩
  · intro f
    unfold get_file_quality_score
    push_cast
    ring
  · intro hm prio f hb
    simp only [gui_get_file_quality_score, hb]
    split <;> · push_cast; ring
  · intro prio f b hb hb0 hext
    simp only [gui_get_file_quality_score, hb, hext]
    norm_num [hb0]
  · have hk1 : normalize_title wmaSample.path = "track".data := by decide
    have hk2 : normalize_title mp3Sample.path = "track".data := by decide
    have hd : firstDedup ["track".data, "track".data] = ["track".data] := by decide
    have hle : ¬ get_file_quality_score mp3Sample ≤ get_file_quality_score wmaSample := by
      rw [hwma, hmp3]; norm_num
    have hsort : isortDesc get_file_quality_score [wmaSample, mp3Sample] =
        [mp3Sample, wmaSample] := by
      simp [isortDesc, insDesc, hle]
    simp [find_duplicates, groupEntries, hk1, hk2, hd, resolve_group, hsort]

/-- Witness for C2 at concrete inputs: the GUI score of the 50 KiB `.wma`
sample with no bitrate equals the formula's value. -/
theorem quality_score_formula_witness :
    gui_get_file_quality_score false FORMAT_PRIORITY wmaSample =
      ((dictGetInt FORMAT_PRIORITY (extOfPath wmaSample.path) : ℚ)) * 1000 +
        ((wmaSample.size : ℚ)) / 1024 :=
  quality_score_formula.2.1 false FORMAT_PRIORITY wmaSample rfl

/-! ## C8 — tag-based identity and its fallback -/

/-- C8: with mutagen available and tag use enabled, a file of a tag-bearing
format whose read artist and title are both non-empty gets the key
`lower(artist) ++ " - " ++ lower(title)` with no filename heuristics; a
file whose tags cannot be read (`tags = none`, the model of every caught
exception) or whose fields are empty falls back, for that file only, to
the filename normalization `normalize_title`, and the function is total —
no error reaches the caller. -/
theorem tag_key_and_fallback :
    (∀ (ut : Bool) (f : AudioFile) (a t : List Char),
        f.tags = some (a, t) → a ≠ [] → t ≠ [] → ut = true →
        (extOfPath f.path = ".mp3".data ∨ extOfPath f.path = ".flac".data ∨
          extOfPath f.path = ".m4a".data) →
        gui_normalize_title true ut f =
          asciiLower a ++ (' ' :: '-' :: ' ' :: []) ++ asciiLower t) ∧
    (∀ (hm ut : Bool) (f : AudioFile), f.tags = none →
        gui_normalize_title hm ut f = normalize_title f.path) ∧
    (∀ (hm ut : Bool) (f : AudioFile) (a t : List Char),
        f.tags = some (a, t) → (a = [] ∨ t = []) →
        gui_normalize_title hm ut f = normalize_title f.path) := by
  refine ⟨?_, ?_, ?_⟩
  · intro ut f a t htags ha ht hut hext
    subst hut
    simp only [extOfPath] at hext
    have hcond : (decide (asciiLower (splitextBase (basename f.path)).2 = ".mp3".data) ||
        decide (asciiLower (splitextBase (basename f.path)).2 = ".flac".data) ||
        decide (asciiLower (splitextBase (basename f.path)).2 = ".m4a".data)) = true := by
      rcases hext with h | h | h <;> simp [h]
    simp [gui_normalize_title, htags, hcond, ha, ht]
  · intro hm ut f htags
    simp [gui_normalize_title, normalize_title, htags]
  · intro hm ut f a t htags hempty
    rcases hempty with h | h <;> subst h <;>
      simp [gui_normalize_title, normalize_title, htags]

/-- Witness for C8: a concrete `.mp3` with artist "Artist" and title
"Title" gets the tag key, and the same file with an unreadable tag falls
back to the filename key. -/
theorem tag_key_and_fallback_witness :
    gui_normalize_title true true
        ⟨"z/Song.mp3".data, 0, some ("Artist".data, "Title".data), none⟩ =
      asciiLower "Artist".data ++ (' ' :: '-' :: ' ' :: []) ++
        asciiLower "Title".data ∧
    gui_normalize_title true true ⟨"z/Song.mp3".data, 0, none, none⟩ =
      normalize_title "z/Song.mp3".data :=
  ⟨tag_key_and_fallback.1 true
      ⟨"z/Song.mp3".data, 0, some ("Artist".data, "Title".data), none⟩
      "Artist".data "Title".data rfl (by decide) (by decide) rfl
      (Or.inl (by decide)),
   tag_key_and_fallback.2.1 true true ⟨"z/Song.mp3".data, 0, none, none⟩ rfl⟩

/-! ## C6 — idempotence of normalization: counterexample -/

/-- C6 counterexample: normalization is not idempotent.  The input
`"a.b.mp3"` normalizes to the key `"a.b"`, and re-normalizing that key as
a fresh file name splits it at its dot — `os.path.splitext` treats
`".b"` as an extension — giving `"a"`. -/
theorem normalize_not_idempotent_on_dotted_key :
    normalize_title "a.b.mp3".data = "a.b".data ∧
    normalize_title (normalize_title "a.b.mp3".data) = "a".data ∧
    normalize_title (normalize_title "a.b.mp3".data) ≠
      normalize_title "a.b.mp3".data := by
  refine ⟨by decide, by decide, by decide⟩

/-! ## C7 — the track-number prefix class: counterexample -/

/-- C7 counterexample: on `"01 Back"` the code's stripping step also eats
the `'B'` — uppercase letters lie inside the range `'.'`–`'_'` that the
class `[\s\.-_]` really denotes — producing `"ack"`, while stripping
exactly digits-then-separators as the claim states would produce
`"Back"`; and on `"01-Song"` the code strips only the digits (the dash is
NOT in the class), while the claim would strip `"01-"`. -/
theorem track_strip_class_counterexample :
    stripTrack "01 Back".data = "ack".data ∧
    stripTrackClaimed "01 Back".data = "Back".data ∧
    stripTrack "01 Back".data ≠ stripTrackClaimed "01 Back".data ∧
    stripTrack "01-Song".data = "-Song".data ∧
    stripTrackClaimed "01-Song".data = "Song".data ∧
    stripTrack "01-Song".data ≠ stripTrackClaimed "01-Song".data := by
  refine ⟨by decide, by decide, by decide, by decide, by decide, by decide⟩

/-! ## C1 — keeper selection and stable descending order -/

/-- C1: for any group of at least two members and any score function, the
resolution step succeeds and returns a record whose members
(keeper followed by duplicates) are a permutation of the group, arranged
in descending score order (second conjunct), with Python-sort stability —
for every score value the members carrying it appear in their original
discovery order (third conjunct); hence the keeper's score is maximal
(fourth conjunct) and the keeper is the first-discovered member attaining
that maximum (fifth conjunct); the score map tabulates every member, and
resolving the same input twice gives the same result. -/
theorem resolution_keeper_max_stable (score : AudioFile → ℚ)
    (l : List AudioFile) (h : 2 ≤ l.length) :
    ∃ r : Resolved, resolve_group score l = some r ∧
      (r.keeper :: r.duplicates).Perm l ∧
      (r.keeper :: r.duplicates).Pairwise (fun a b => score b ≤ score a) ∧
      (∀ c : ℚ, (r.keeper :: r.duplicates).filter (fun f => decide (score f = c)) =
          l.filter (fun f => decide (score f = c))) ∧
      (∀ f ∈ l, score f ≤ score r.keeper) ∧
      (l.filter (fun f => decide (score f = score r.keeper))).head? =
        some r.keeper ∧
      r.scores = (r.keeper :: r.duplicates).map (fun f => (f, score f)) ∧
      resolve_group score l = resolve_group score l := by
  rcases hs : isortDesc score l with _ | ⟨k, ds⟩
  · exfalso
    have := (perm_isortDesc score l).length_eq
    rw [hs] at this
    simp at this
    omega
  · refine ⟨⟨k, ds, (k :: ds).map (fun f => (f, score f))⟩, ?_, ?_, ?_, ?_, ?_, ?_, rfl, rfl⟩
    · unfold resolve_group
      rw [hs]
    · rw [← hs]; exact perm_isortDesc score l
    · rw [← hs]; exact pairwise_isortDesc score l
    · intro c
      rw [← hs]; exact filter_isortDesc score l c
    · intro f hf
      have hmem : f ∈ k :: ds := by
        rw [← hs]
        exact ((perm_isortDesc score l).mem_iff).2 hf
      have hpw := pairwise_isortDesc score l
      rw [hs] at hpw
      cases hmem with
      | head => exact le_refl _
      | tail _ hmem => exact (List.pairwise_cons.1 hpw).1 f hmem
    · have := filter_isortDesc score l (score k)
      rw [hs] at this
      rw [← this]
      simp [List.filter_cons]

/-- Witness for C1: three files of the program's own scoring with a tie
between the two larger ones; the earliest of the tied pair is the keeper,
and all conjuncts hold at this input. -/
theorem resolution_keeper_max_stable_witness :
    2 ≤ ([⟨"a/y.mp3".data, 1024, none, none⟩, ⟨"b/y.mp3".data, 2048, none, none⟩,
        ⟨"c/y.mp3".data, 2048, none, none⟩] : List AudioFile).length ∧
    (∃ r : Resolved, resolve_group get_file_quality_score
        [⟨"a/y.mp3".data, 1024, none, none⟩, ⟨"b/y.mp3".data, 2048, none, none⟩,
         ⟨"c/y.mp3".data, 2048, none, none⟩] = some r ∧
      (r.keeper :: r.duplicates).Perm
        [⟨"a/y.mp3".data, 1024, none, none⟩, ⟨"b/y.mp3".data, 2048, none, none⟩,
         ⟨"c/y.mp3".data, 2048, none, none⟩] ∧
      (r.keeper :: r.duplicates).Pairwise
        (fun a b => get_file_quality_score b ≤ get_file_quality_score a) ∧
      (∀ c : ℚ, (r.keeper :: r.duplicates).filter
            (fun f => decide (get_file_quality_score f = c)) =
          ([⟨"a/y.mp3".data, 1024, none, none⟩, ⟨"b/y.mp3".data, 2048, none, none⟩,
            ⟨"c/y.mp3".data, 2048, none, none⟩] : List AudioFile).filter
            (fun f => decide (get_file_quality_score f = c))) ∧
      (∀ f ∈ ([⟨"a/y.mp3".data, 1024, none, none⟩, ⟨"b/y.mp3".data, 2048, none, none⟩,
            ⟨"c/y.mp3".data, 2048, none, none⟩] : List AudioFile),
          get_file_quality_score f ≤ get_file_quality_score r.keeper) ∧
      (([⟨"a/y.mp3".data, 1024, none, none⟩, ⟨"b/y.mp3".data, 2048, none, none⟩,
          ⟨"c/y.mp3".data, 2048, none, none⟩] : List AudioFile).filter
          (fun f => decide (get_file_quality_score f = get_file_quality_score r.keeper))).head? =
        some r.keeper ∧
      r.scores = (r.keeper :: r.duplicates).map (fun f => (f, get_file_quality_score f)) ∧
      resolve_group get_file_quality_score
          [⟨"a/y.mp3".data, 1024, none, none⟩, ⟨"b/y.mp3".data, 2048, none, none⟩,
           ⟨"c/y.mp3".data, 2048, none, none⟩] =
        resolve_group get_file_quality_score
          [⟨"a/y.mp3".data, 1024, none, none⟩, ⟨"b/y.mp3".data, 2048, none, none⟩,
           ⟨"c/y.mp3".data, 2048, none, none⟩]) :=
  ⟨by decide, resolution_keeper_max_stable get_file_quality_score _ (by decide)⟩

/-! ## C3 — every reported group has at least two members -/

/-- C3: for all inputs — any set of discovered files, the exact-size
flag on or off, any threshold and priorities — every group present in the
result of `find_duplicates` or `run_scan` has at least two members
(keeper plus at least one duplicate); singleton groups never appear. -/
theorem scan_groups_at_least_two :
    (∀ (th : ℚ) (files : List AudioFile) (k : List Char) (r : Resolved),
        (k, r) ∈ find_duplicates th files →
        2 ≤ (r.keeper :: r.duplicates).length) ∧
    (∀ (hm ut : Bool) (th : ℚ) (exact : Bool) (prio : List (List Char × Int))
        (files : List AudioFile) (k : List Char) (r : Resolved),
        (k, r) ∈ run_scan hm ut th exact prio files →
        2 ≤ (r.keeper :: r.duplicates).length) := by
  constructor
  · intro th files k r h
    simp only [find_duplicates] at h
    rcases mem_resolveStage h with ⟨g, hg, hres⟩
    have h1 := (mem_groupEntries hg).2
    have h2 := resolve_members_length hres
    omega
  · intro hm ut th exact prio files k r h
    simp only [run_scan] at h
    rcases mem_resolveStage h with ⟨g, hg, hres⟩
    have h2 := resolve_members_length hres
    by_cases he : exact = true
    · rw [if_pos he] at hg
      rcases sizePartition_mem hg with ⟨ng, _, s', hx, hlen⟩
      have hgeq : g = ng.2.filter (fun f => decide (f.size = s')) :=
        congrArg Prod.snd hx
      rw [hgeq] at h2
      omega
    · rw [if_neg he] at hg
      have h1 := (mem_groupEntries hg).2
      omega

/-- Witness for C3: a concrete two-file scan whose single group has
exactly two members. -/
theorem scan_groups_at_least_two_witness :
    2 ≤ (resolvedAB.keeper :: resolvedAB.duplicates).length := by
  have hgrp : groupEntries (fun f => normalize_title f.path) [fileA, fileB] =
      [("x".data, [fileA, fileB])] := by decide
  have hA : get_file_quality_score fileA = 1002 := by
    have h1 : extOfPath fileA.path = ".mp3".data := by decide
    have h2 : dictGetInt FORMAT_PRIORITY ".mp3".data = 1 := by decide
    rw [get_file_quality_score, h1, h2]
    norm_num [fileA]
  have hB : get_file_quality_score fileB = 1001 := by
    have h1 : extOfPath fileB.path = ".mp3".data := by decide
    have h2 : dictGetInt FORMAT_PRIORITY ".mp3".data = 1 := by decide
    rw [get_file_quality_score, h1, h2]
    norm_num [fileB]
  have hle : get_file_quality_score fileB ≤ get_file_quality_score fileA := by
    rw [hA, hB]; norm_num
  have hsort : isortDesc get_file_quality_score [fileA, fileB] = [fileA, fileB] := by
    simp [isortDesc, insDesc, hle]
  have hmem : ("x".data, resolvedAB) ∈ find_duplicates 0 [fileA, fileB] := by
    simp [find_duplicates, hgrp, resolve_group, hsort, resolvedAB]
  exact scan_groups_at_least_two.1 0 [fileA, fileB] "x".data resolvedAB hmem

/-! ## C5 — the exact-size partition -/

/-- C5: with exact-size matching enabled, every group in the scan result
carries a key of the form `"<name> (<size> bytes)"`, has at least two
members, all its members share the normalization key `name` and the byte
size `size` — so two files sharing a normalized key but differing in size
never appear in the same group. -/
theorem exact_size_partition (hm ut : Bool) (th : ℚ)
    (prio : List (List Char × Int)) (files : List AudioFile)
    (k : List Char) (r : Resolved)
    (h : (k, r) ∈ run_scan hm ut th true prio files) :
    ∃ name s, k = sizeKey name s ∧
      2 ≤ (r.keeper :: r.duplicates).length ∧
      (∀ f ∈ r.keeper :: r.duplicates,
        gui_normalize_title hm ut f = name ∧ f.size = s) ∧
      (∀ f g', f ∈ r.keeper :: r.duplicates → g' ∈ r.keeper :: r.duplicates →
        f.size = g'.size) := by
  simp only [run_scan] at h
  rcases mem_resolveStage h with ⟨g, hg, hres⟩
  rw [if_pos trivial] at hg
  rcases sizePartition_mem hg with ⟨ng, hng, s', hx, hlen⟩
  have hk : k = sizeKey ng.1 s' := congrArg Prod.fst hx
  have hgeq : g = ng.2.filter (fun f => decide (f.size = s')) :=
    congrArg Prod.snd hx
  have hperm := resolve_group_perm hres
  have hlen2 := resolve_members_length hres
  have hng2 := mem_groupEntries (k := ng.1) (g := ng.2) hng
  have hmembers : ∀ f ∈ r.keeper :: r.duplicates,
      f.size = s' ∧ gui_normalize_title hm ut f = ng.1 := by
    intro f hf
    have hfg : f ∈ g := (hperm.mem_iff).1 hf
    rw [hgeq] at hfg
    rcases List.mem_filter.1 hfg with ⟨hfng, hdec⟩
    have hsz : f.size = s' := by simpa using hdec
    rw [hng2.1] at hfng
    rcases List.mem_filter.1 hfng with ⟨_, hdec2⟩
    exact ⟨hsz, by simpa using hdec2⟩
  refine ⟨ng.1, s', hk, ?_, ?_, ?_⟩
  · rw [hgeq] at hlen2
    omega
  · exact fun f hf => ⟨(hmembers f hf).2, (hmembers f hf).1⟩
  · intro f g' hf hg'
    rw [(hmembers f hf).1, (hmembers g' hg').1]

/-- Witness for C5: a three-file scan with exact-size matching, where the
two 1024-byte files form the single surviving group under the size-refined
key, and the 2048-byte file with the same title key is excluded. -/
theorem exact_size_partition_witness :
    ∃ name s, sizeKey "x".data 1024 = sizeKey name s ∧
      2 ≤ (resolvedBB.keeper :: resolvedBB.duplicates).length ∧
      (∀ f ∈ resolvedBB.keeper :: resolvedBB.duplicates,
        gui_normalize_title false false f = name ∧ f.size = s) ∧
      (∀ f g', f ∈ resolvedBB.keeper :: resolvedBB.duplicates →
        g' ∈ resolvedBB.keeper :: resolvedBB.duplicates →
        f.size = g'.size) := by
  have hd2 : sizePartition
      (groupEntries (fun f => gui_normalize_title false false f)
        [fileA, fileB, fileB2]) =
      [(sizeKey "x".data 1024, [fileB, fileB2])] := by decide
  have hB : gui_get_file_quality_score false FORMAT_PRIORITY fileB = 1001 := by
    have h1 : extOfPath fileB.path = ".mp3".data := by decide
    have h2 : dictGetInt FORMAT_PRIORITY ".mp3".data = 1 := by decide
    simp only [gui_get_file_quality_score, h1, h2]
    norm_num [fileB]
  have hB2 : gui_get_file_quality_score false FORMAT_PRIORITY fileB2 = 1001 := by
    have h1 : extOfPath fileB2.path = ".mp3".data := by decide
    have h2 : dictGetInt FORMAT_PRIORITY ".mp3".data = 1 := by decide
    simp only [gui_get_file_quality_score, h1, h2]
    norm_num [fileB2]
  have hle : gui_get_file_quality_score false FORMAT_PRIORITY fileB2 ≤
      gui_get_file_quality_score false FORMAT_PRIORITY fileB := by
    rw [hB, hB2]
  have hsort : isortDesc (gui_get_file_quality_score false FORMAT_PRIORITY)
      [fileB, fileB2] = [fileB, fileB2] := by
    simp [isortDesc, insDesc, hle]
  have hmem : (sizeKey "x".data 1024, resolvedBB) ∈
      run_scan false false 0 true FORMAT_PRIORITY [fileA, fileB, fileB2] := by
    simp [run_scan, hd2, resolve_group, hsort, resolvedBB]
  exact exact_size_partition false false 0 FORMAT_PRIORITY
    [fileA, fileB, fileB2] (sizeKey "x".data 1024) resolvedBB hmem

/-! ## Helper lemmas about paths and the move executor -/

theorem mem_takeWhile_imp' {p : Char → Bool} {l : List Char} {a : Char}
    (h : a ∈ l.takeWhile p) : p a = true := by
  induction l with
  | nil => cases h
  | cons c t ih =>
    rw [List.takeWhile_cons] at h
    split at h
    · rcases List.mem_cons.1 h with rfl | h1
      · assumption
      · exact ih h1
    · cases h

theorem basename_no_slash (p : List Char) : '/' ∉ basename p := by
  intro h
  unfold basename at h
  rw [List.mem_reverse] at h
  have := mem_takeWhile_imp' h
  simp at this

theorem splitextBase_append (n : List Char) :
    (splitextBase n).1 ++ (splitextBase n).2 = n := by
  simp only [splitextBase]
  split
  · simp
  · split
    · exact List.take_append_drop _ n
    · simp

theorem splitextBase_stem_subset {n : List Char} {c : Char}
    (h : c ∈ (splitextBase n).1) : c ∈ n := by
  simp only [splitextBase] at h
  split at h
  · exact h
  · split at h
    · exact List.take_subset _ _ h
    · exact h

theorem pjoin_right_inj {d a b : List Char} (ha : a.head? ≠ some '/')
    (hb : b.head? ≠ some '/') : pjoin d a = pjoin d b ↔ a = b := by
  unfold pjoin
  rw [if_neg ha, if_neg hb]
  split
  · exact iff_of_eq (List.append_cancel_left_eq d a b)
  · constructor
    · intro h
      have h2 := List.append_cancel_left h
      injection h2
    · intro h; rw [h]

theorem head?_ne_slash_of_not_mem {l : List Char} (h : '/' ∉ l) :
    l.head? ≠ some '/' := by
  cases l with
  | nil => simp
  | cons c t =>
    simp only [List.head?_cons, ne_eq, Option.some.injEq]
    intro hc
    subst hc
    exact h (List.mem_cons_self _ t)

theorem hashed_ne_plain (md5hex6 : List Char → List Char) (d dupe : List Char) :
    pjoin d (basename dupe) ≠ hashedTarget md5hex6 d dupe := by
  unfold hashedTarget
  intro h
  have hslash := basename_no_slash dupe
  have ha : (basename dupe).head? ≠ some '/' :=
    head?_ne_slash_of_not_mem hslash
  have hb : ((splitextBase (basename dupe)).1 ++
      '_' :: (md5hex6 dupe ++ (splitextBase (basename dupe)).2)).head? ≠
        some '/' := by
    rcases hstem : (splitextBase (basename dupe)).1 with _ | ⟨c, t⟩
    · simp
    · have hc : c ∈ basename dupe := splitextBase_stem_subset
        (by rw [hstem]; exact List.mem_cons_self c t)
      simp only [List.cons_append, List.head?_cons, ne_eq, Option.some.injEq]
      intro hceq
      subst hceq
      exact hslash hc
  have heq := (pjoin_right_inj ha hb).1 h
  have hcat := splitextBase_append (basename dupe)
  have heq2 : (splitextBase (basename dupe)).1 ++ (splitextBase (basename dupe)).2 =
      (splitextBase (basename dupe)).1 ++
        '_' :: (md5hex6 dupe ++ (splitextBase (basename dupe)).2) :=
    hcat.trans heq
  have htail := List.append_cancel_left heq2
  have hlen := congrArg List.length htail
  simp at hlen
  omega

theorem processFile_move_eq {md5hex6 : List Char → List Char} {d : List Char}
    (hd : d ≠ []) {fs : FS} {dupe : List Char} (hin : dupe ∈ fs.files) :
    (processFile md5hex6 false (some d) fs dupe).1 =
      { fs with files := ((fs.files.erase dupe).filter
          (fun p => decide (p ≠ moveTarget md5hex6 d dupe fs))) ++
          [moveTarget md5hex6 d dupe fs] } := by
  simp only [processFile, Bool.false_eq_true, if_false, mvTruthy,
    Option.getD_some, decide_eq_true_eq]
  rw [if_pos hd, if_pos hin]

theorem processFile_skip_eq {md5hex6 : List Char → List Char} {d : List Char}
    (hd : d ≠ []) {fs : FS} {dupe : List Char} (hnin : dupe ∉ fs.files) :
    (processFile md5hex6 false (some d) fs dupe).1 = fs := by
  simp only [processFile, Bool.false_eq_true, if_false, mvTruthy,
    Option.getD_some, decide_eq_true_eq]
  rw [if_pos hd, if_neg hnin]

theorem processFile_preserves {md5hex6 : List Char → List Char}
    {d : List Char} (hd : d ≠ []) {fs : FS} {dupe p : List Char}
    (hp : p ∈ fs.files) (h1 : p ≠ dupe)
    (h2 : p ≠ hashedTarget md5hex6 d dupe) :
    p ∈ (processFile md5hex6 false (some d) fs dupe).1.files := by
  by_cases hin : dupe ∈ fs.files
  · rw [processFile_move_eq hd hin]
    refine List.mem_append.2 (Or.inl ?_)
    rw [List.mem_filter]
    refine ⟨(List.mem_erase_of_ne h1).2 hp, ?_⟩
    simp only [decide_eq_true_eq]
    unfold moveTarget
    dsimp only
    split
    · exact h2
    · rename_i hex
      intro hpt
      apply hex
      unfold path_exists
      simp only [Bool.or_eq_true, decide_eq_true_eq]
      exact Or.inl (hpt ▸ hp)
  · rw [processFile_skip_eq hd hin]
    exact hp

theorem foldl_move_preserves {md5hex6 : List Char → List Char}
    {d : List Char} (hd : d ≠ []) :
    ∀ (dupes : List AudioFile) (acc : FS × List (List Char)) (p : List Char),
      p ∈ acc.1.files →
      (∀ f ∈ dupes, p ≠ f.path ∧ p ≠ hashedTarget md5hex6 d f.path) →
      p ∈ (dupes.foldl (fun acc2 f =>
          ((processFile md5hex6 false (some d) acc2.1 f.path).1,
            acc2.2 ++ (processFile md5hex6 false (some d) acc2.1 f.path).2))
        acc).1.files := by
  intro dupes
  induction dupes with
  | nil => intro acc p hp _; exact hp
  | cons f rest ih =>
    intro acc p hp hall
    rw [List.foldl_cons]
    refine ih _ p ?_ ?_
    · exact processFile_preserves hd hp (hall f (List.mem_cons_self f rest)).1
        (hall f (List.mem_cons_self f rest)).2
    · intro f' hf'
      exact hall f' (List.mem_cons_of_mem f hf')

theorem process_move_frame {md5hex6 : List Char → List Char}
    {d : List Char} (hd : d ≠ []) :
    ∀ (dups : List (List Char × Resolved)) (acc : FS × List (List Char))
      (p : List Char),
      p ∈ acc.1.files →
      (∀ kg ∈ dups, ∀ f ∈ kg.2.duplicates,
        p ≠ f.path ∧ p ≠ hashedTarget md5hex6 d f.path) →
      p ∈ (dups.foldl (fun acc kg =>
          kg.2.duplicates.foldl (fun acc2 f =>
            ((processFile md5hex6 false (some d) acc2.1 f.path).1,
              acc2.2 ++ (processFile md5hex6 false (some d) acc2.1 f.path).2))
            acc)
        acc).1.files := by
  intro dups
  induction dups with
  | nil => intro acc p hp _; exact hp
  | cons kg rest ih =>
    intro acc p hp hall
    rw [List.foldl_cons]
    refine ih _ p ?_ ?_
    · exact foldl_move_preserves hd _ _ p hp
        (hall kg (List.mem_cons_self kg rest))
    · intro kg' hkg'
      exact hall kg' (List.mem_cons_of_mem kg hkg')

/-! ## C9 — semantics of the move action -/

/-- C9: under the move action (no dry-run, `move_dir = d` non-empty):
when the destination already holds a file named like the duplicate
(first conjunct), the move disambiguates exactly once — the duplicate
lands at `hashedTarget`, the name built by inserting the short
deterministic hash of the duplicate's original full path before the
extension — the pre-existing file at the plain destination name is left
untouched, the duplicate's old path is gone, and every other file
survives; when there is no collision (second conjunct) the duplicate
lands under its base file name; and over a whole processing run
(third conjunct) any file that is neither some group's duplicate nor a
hash-disambiguated target — in particular each group's keeper — is never
moved, deleted or overwritten. -/
theorem move_semantics :
    (∀ (md5hex6 : List Char → List Char) (fs : FS) (d dupe : List Char),
      d ≠ [] → fs.files.Nodup → dupe ∈ fs.files →
      pjoin d (basename dupe) ∈ fs.files →
      dupe ≠ pjoin d (basename dupe) →
      pjoin d (basename dupe) ∈
          (processFile md5hex6 false (some d) fs dupe).1.files ∧
        hashedTarget md5hex6 d dupe ∈
          (processFile md5hex6 false (some d) fs dupe).1.files ∧
        (dupe ≠ hashedTarget md5hex6 d dupe →
          dupe ∉ (processFile md5hex6 false (some d) fs dupe).1.files) ∧
        (∀ p ∈ fs.files, p ≠ dupe → p ≠ hashedTarget md5hex6 d dupe →
          p ∈ (processFile md5hex6 false (some d) fs dupe).1.files)) ∧
    (∀ (md5hex6 : List Char → List Char) (fs : FS) (d dupe : List Char),
      d ≠ [] → dupe ∈ fs.files →
      path_exists fs (pjoin d (basename dupe)) = false →
      (processFile md5hex6 false (some d) fs dupe).1.files =
        fs.files.erase dupe ++ [pjoin d (basename dupe)]) ∧
    (∀ (md5hex6 : List Char → List Char)
      (dups : List (List Char × Resolved)) (fs : FS) (d p : List Char),
      d ≠ [] → p ∈ fs.files →
      (∀ kg ∈ dups, ∀ f ∈ kg.2.duplicates,
        p ≠ f.path ∧ p ≠ hashedTarget md5hex6 d f.path) →
      p ∈ (process_duplicates md5hex6 dups false (some d) fs).1.files) := by
  refine ⟨?_, ?_, ?_⟩
  · intro md5hex6 fs d dupe hd hnd hin hcol hne
    have hmt : moveTarget md5hex6 d dupe fs = hashedTarget md5hex6 d dupe := by
      unfold moveTarget
      rw [if_pos]
      unfold path_exists
      simp only [Bool.or_eq_true, decide_eq_true_eq]
      exact Or.inl hcol
    have hbody : (processFile md5hex6 false (some d) fs dupe).1.files =
        ((fs.files.erase dupe).filter
          (fun p => decide (p ≠ hashedTarget md5hex6 d dupe))) ++
          [hashedTarget md5hex6 d dupe] := by
      rw [processFile_move_eq hd hin, hmt]
    refine ⟨?_, ?_, ?_, ?_⟩
    · rw [hbody]
      refine List.mem_append.2 (Or.inl ?_)
      rw [List.mem_filter]
      refine ⟨(List.mem_erase_of_ne hne.symm).2 hcol, ?_⟩
      simp only [decide_eq_true_eq]
      exact hashed_ne_plain md5hex6 d dupe
    · rw [hbody]
      exact List.mem_append.2 (Or.inr (List.mem_singleton.2 rfl))
    · intro hneh hmem
      rw [hbody] at hmem
      rcases List.mem_append.1 hmem with hm | hm
      · have hdup : dupe ∈ fs.files.erase dupe := (List.mem_filter.1 hm).1
        rw [hnd.mem_erase_iff] at hdup
        exact hdup.1 rfl
      · exact hneh (List.mem_singleton.1 hm)
    · intro p hp hp1 hp2
      rw [hbody]
      refine List.mem_append.2 (Or.inl ?_)
      rw [List.mem_filter]
      exact ⟨(List.mem_erase_of_ne hp1).2 hp, by simpa using hp2⟩
  · intro md5hex6 fs d dupe hd hin hnex
    unfold path_exists at hnex
    rw [Bool.or_eq_false_iff, decide_eq_false_iff_not, decide_eq_false_iff_not]
      at hnex
    have hmt : moveTarget md5hex6 d dupe fs = pjoin d (basename dupe) := by
      unfold moveTarget
      rw [if_neg]
      unfold path_exists
      simp only [Bool.or_eq_true, decide_eq_true_eq]
      rintro (h1 | h1)
      · exact hnex.1 h1
      · exact hnex.2 h1
    rw [processFile_move_eq hd hin, hmt]
    have hfe : (fs.files.erase dupe).filter
        (fun p => decide (p ≠ pjoin d (basename dupe))) =
        fs.files.erase dupe := by
      rw [List.filter_eq_self]
      intro a ha
      simp only [decide_eq_true_eq]
      intro haeq
      exact hnex.1 (haeq ▸ List.mem_of_mem_erase ha)
    show (fs.files.erase dupe).filter _ ++ _ = _
    rw [hfe]
  · intro md5hex6 dups fs d p hd hp hall
    unfold process_duplicates
    refine process_move_frame hd dups _ p ?_ hall
    show p ∈ (if _ then { fs with dirs := _ } else fs).files
    split
    · exact hp
    · exact hp

/-- Witness for C9 (spec scenario C): moving `/music/track.mp3` into
`/dest`, which already holds a `track.mp3`, leaves the pre-existing
`/dest/track.mp3` untouched, creates the hash-suffixed file, removes the
source, and the keeper `/music/track.flac` survives a full processing
run. -/
theorem move_semantics_witness :
    pjoin "/dest".data (basename "/music/track.mp3".data) ∈
        (processFile md5stub false (some "/dest".data) fsSampleC
          "/music/track.mp3".data).1.files ∧
      hashedTarget md5stub "/dest".data "/music/track.mp3".data ∈
        (processFile md5stub false (some "/dest".data) fsSampleC
          "/music/track.mp3".data).1.files ∧
      ("/music/track.mp3".data ≠
          hashedTarget md5stub "/dest".data "/music/track.mp3".data →
        "/music/track.mp3".data ∉
          (processFile md5stub false (some "/dest".data) fsSampleC
            "/music/track.mp3".data).1.files) ∧
      (∀ p ∈ fsSampleC.files, p ≠ "/music/track.mp3".data →
        p ≠ hashedTarget md5stub "/dest".data "/music/track.mp3".data →
        p ∈ (processFile md5stub false (some "/dest".data) fsSampleC
          "/music/track.mp3".data).1.files) ∧
      "/music/track.flac".data ∈
        (process_duplicates md5stub [("track".data, groupSampleC)] false
          (some "/dest".data) fsSampleC).1.files :=
  ⟨(move_semantics.1 md5stub fsSampleC "/dest".data "/music/track.mp3".data
      (by decide) (by decide) (by decide) (by decide) (by decide)).1,
   (move_semantics.1 md5stub fsSampleC "/dest".data "/music/track.mp3".data
      (by decide) (by decide) (by decide) (by decide) (by decide)).2.1,
   (move_semantics.1 md5stub fsSampleC "/dest".data "/music/track.mp3".data
      (by decide) (by decide) (by decide) (by decide) (by decide)).2.2.1,
   (move_semantics.1 md5stub fsSampleC "/dest".data "/music/track.mp3".data
      (by decide) (by decide) (by decide) (by decide) (by decide)).2.2.2,
   move_semantics.2.2 md5stub [("track".data, groupSampleC)] fsSampleC
      "/dest".data "/music/track.flac".data (by decide) (by decide)
      (by decide)⟩

/-! ## Helper lemmas about the track-number stripping step -/

theorem dropWhile_eq_drop_len (p : Char → Bool) (l : List Char) :
    l.dropWhile p = l.drop (l.takeWhile p).length := by
  induction l with
  | nil => rfl
  | cons a t ih =>
    rw [List.dropWhile_cons, List.takeWhile_cons]
    split
    · simpa using ih
    · simp

theorem dropWhile_append_of_all {p : Char → Bool} {xs ys : List Char}
    (h : ∀ x ∈ xs, p x = true) :
    (xs ++ ys).dropWhile p = ys.dropWhile p := by
  induction xs with
  | nil => rfl
  | cons a t ih =>
    rw [List.cons_append, List.dropWhile_cons,
      if_pos (h a (List.mem_cons_self a t))]
    exact ih (fun x hx => h x (List.mem_cons_of_mem a hx))

theorem isCcls_of_isDig {c : Char} (h : isDig c = true) : isCcls c = true := by
  simp only [isDig, decide_eq_true_eq] at h
  simp only [isCcls, Bool.or_eq_true, decide_eq_true_eq]
  right
  omega

/-! ## C7 — what the stripping step actually removes -/

/-- C7 amended: the track-number stripping step is exactly the map
`stripTrackAmended` — it strips one leading digit plus the maximal
non-empty run of characters from `whitespace ∪ [U+002E..U+005F]`
following it (a set that includes the digits, periods, uppercase letters
and `'_'` but not the dash), and leaves every other name unchanged. -/
theorem track_strip_characterization :
    ∀ s : List Char, stripTrack s = stripTrackAmended s := by
  intro s
  match s with
  | [] => rfl
  | [c0] =>
    simp only [stripTrack, stripTrackAmended, List.takeWhile]
    by_cases h0 : isDig c0 = true
    · simp [h0]
    · simp [h0]
  | c0 :: c1 :: t =>
    by_cases h0 : isDig c0 = true
    swap
    · have hm : ((c0 :: c1 :: t).takeWhile isDig).length = 0 := by
        rw [List.takeWhile_cons, if_neg h0]
        rfl
      simp only [stripTrack, stripTrackAmended, hm]
      simp [h0]
    · have hm : ((c0 :: c1 :: t).takeWhile isDig).length =
          1 + ((c1 :: t).takeWhile isDig).length := by
        rw [List.takeWhile_cons, if_pos h0]
        simp [Nat.add_comm]
      have hdrop : (c0 :: c1 :: t).drop
          (1 + ((c1 :: t).takeWhile isDig).length) =
          (c1 :: t).dropWhile isDig := by
        have h' : (c0 :: c1 :: t).drop
            (1 + ((c1 :: t).takeWhile isDig).length) =
            (c1 :: t).drop (((c1 :: t).takeWhile isDig).length) := by
          rw [Nat.add_comm]
          simp [List.drop_succ_cons]
        rw [h', ← dropWhile_eq_drop_len]
      by_cases h1 : isCcls c1 = true
      · have halld : ∀ x ∈ (c1 :: t).takeWhile isDig, isCcls x = true :=
          fun x hx => isCcls_of_isDig (mem_takeWhile_imp' hx)
        have hdw : (c1 :: t).dropWhile isCcls =
            ((c1 :: t).dropWhile isDig).dropWhile isCcls := by
          conv_lhs => rw [← List.takeWhile_append_dropWhile (p := isDig)
            (l := c1 :: t)]
          exact dropWhile_append_of_all halld
        have hamd : stripTrackAmended (c0 :: c1 :: t) =
            (c1 :: t).dropWhile isCcls := by
          simp only [stripTrackAmended]
          rw [if_pos (by rw [h0, h1]; rfl)]
        rw [hamd]
        simp only [stripTrack, hm, hdrop]
        rw [if_neg (by omega)]
        rcases hrest1 : (c1 :: t).dropWhile isDig with _ | ⟨c, r⟩
        · have hall : ∀ x ∈ c1 :: t, isDig x = true :=
            List.dropWhile_eq_nil_iff.1 hrest1
          have hm1 : ((c1 :: t).takeWhile isDig).length = (c1 :: t).length := by
            rw [List.takeWhile_eq_self_iff.2 hall]
          simp only [List.head?_nil, Option.any_none, Bool.false_eq_true,
            if_false]
          rw [if_pos (by rw [hm1]; simp; omega), hdw, hrest1]
          rfl
        · by_cases hc : isCcls c = true
          · simp only [List.head?_cons, Option.any_some, hc, if_true]
            rw [← List.drop_drop, hdrop, hrest1,
              ← dropWhile_eq_drop_len, hdw, hrest1]
          · have hm1 : 1 ≤ ((c1 :: t).takeWhile isDig).length := by
              by_cases hd1 : isDig c1 = true
              · rw [List.takeWhile_cons, if_pos hd1]
                simp
              · exfalso
                have hdw1 : (c1 :: t).dropWhile isDig = c1 :: t := by
                  rw [List.dropWhile_cons,
                    if_neg (by rw [Bool.not_eq_true] at hd1; rw [hd1]; simp)]
                rw [hdw1] at hrest1
                have hcc : c = c1 := (List.cons.injEq _ _ _ _ ▸ hrest1).1.symm
                exact hc (hcc ▸ h1)
            simp only [List.head?_cons, Option.any_some, hc, Bool.false_eq_true,
              if_false]
            rw [if_pos (by omega)]
            rw [hdw]
            rw [hrest1]
            rw [List.dropWhile_cons]
            rw [if_neg (by rw [Bool.not_eq_true] at hc; rw [hc]; simp)]
      · have hd1 : isDig c1 = false := by
          rw [← Bool.not_eq_true]
          intro hd1
          exact h1 (isCcls_of_isDig hd1)
        have hm1 : ((c1 :: t).takeWhile isDig).length = 0 := by
          rw [List.takeWhile_cons, if_neg (by rw [hd1]; simp)]
          rfl
        have hdw1 : (c1 :: t).dropWhile isDig = c1 :: t := by
          rw [List.dropWhile_cons, if_neg (by rw [hd1]; simp)]
        have h1f : isCcls c1 = false := by
          rw [← Bool.not_eq_true]
          exact h1
        simp only [stripTrack, stripTrackAmended, hm, hm1, hdrop, hdw1]
        simp [h0, h1f]

/-! ## Helper lemmas for the conditional idempotence of normalization -/

theorem toNat_lowerC (c : Char) : (lowerC c).toNat =
    if 65 ≤ c.toNat ∧ c.toNat ≤ 90 then c.toNat + 32 else c.toNat := by
  unfold lowerC
  split
  · rename_i h
    have hv : (c.toNat + 32).isValidChar := Or.inl (by omega)
    rw [Char.ofNat, dif_pos hv]
    rfl
  · rfl

theorem isSepC_lowerC (c : Char) : isSepC (lowerC c) = isSepC c := by
  unfold isSepC isPySpace
  rw [toNat_lowerC]
  split
  · rw [Bool.eq_iff_iff]
    simp only [Bool.or_eq_true, decide_eq_true_eq]
    omega
  · rfl

theorem isPySpace_lowerC (c : Char) : isPySpace (lowerC c) = isPySpace c := by
  unfold isPySpace
  rw [toNat_lowerC]
  split
  · rw [Bool.eq_iff_iff]
    simp only [decide_eq_true_eq]
    omega
  · rfl

theorem lowerC_idem (c : Char) : lowerC (lowerC c) = lowerC c := by
  nth_rewrite 1 [lowerC]
  rw [if_neg]
  rw [toNat_lowerC]
  split <;> omega

theorem lowerC_eq_slash {c : Char} (h : lowerC c = '/') : c = '/' := by
  by_cases hr : 65 ≤ c.toNat ∧ c.toNat ≤ 90
  · exfalso
    have hn := congrArg Char.toNat h
    rw [toNat_lowerC, if_pos hr] at hn
    have h47 : ('/' : Char).toNat = 47 := rfl
    rw [h47] at hn
    omega
  · unfold lowerC at h
    rw [if_neg hr] at h
    exact h

theorem map_id_of_fixed {f : Char → Char} :
    ∀ {l : List Char}, (∀ c ∈ l, f c = c) → l.map f = l := by
  intro l
  induction l with
  | nil => intro _; rfl
  | cons a t ih =>
    intro h
    rw [List.map_cons, h a (List.mem_cons_self a t),
      ih (fun c hc => h c (List.mem_cons_of_mem a hc))]

theorem head?_dropWhile_not {p : Char → Bool} {l : List Char} {a : Char}
    (h : (l.dropWhile p).head? = some a) : p a = false := by
  induction l with
  | nil => cases h
  | cons c t ih =>
    rw [List.dropWhile_cons] at h
    split at h
    · exact ih h
    · rename_i hc
      rw [List.head?_cons, Option.some_inj] at h
      subst h
      exact Bool.not_eq_true _ ▸ hc

theorem dropWhile_eq_self_of_head {p : Char → Bool} {l : List Char}
    (h : ∀ a, l.head? = some a → p a = false) : l.dropWhile p = l := by
  cases l with
  | nil => rfl
  | cons c t =>
    rw [List.dropWhile_cons, if_neg]
    rw [h c rfl]
    simp

theorem prefix_head {l₁ l₂ : List Char} {a : Char} (hpre : l₁ <+: l₂)
    (h : l₁.head? = some a) : l₂.head? = some a := by
  rcases hpre with ⟨t, rfl⟩
  cases l₁ with
  | nil => cases h
  | cons c r =>
    rw [List.head?_cons, Option.some_inj] at h
    subst h
    rfl

theorem collapseRunsF_head_of_not {fuel : Nat} {d : Char} {t : List Char}
    (hd : isSepC d = false) : (collapseRunsF fuel (d :: t)).head? = some d := by
  cases fuel with
  | zero => cases t <;> rfl
  | succ fuel =>
    cases t with
    | nil => rfl
    | cons e t' =>
      simp only [collapseRunsF]
      rw [if_neg (by rw [hd]; simp)]
      rfl

theorem collapseRunsF_chain' :
    ∀ (fuel : Nat) (s : List Char), s.length ≤ fuel →
    List.Chain' (fun a b => isSepC a = false ∨ isSepC b = false)
      (collapseRunsF fuel s) := by
  intro fuel
  induction fuel with
  | zero =>
    intro s hs
    have : s = [] := List.length_eq_zero.1 (Nat.le_zero.1 hs)
    subst this
    exact List.chain'_nil
  | succ fuel ih =>
    intro s hs
    match s with
    | [] => exact List.chain'_nil
    | [c] => exact List.chain'_singleton c
    | c :: d :: rest =>
      simp only [collapseRunsF]
      by_cases hc : isSepC c = true
      · rw [if_pos hc]
        by_cases hd : isSepC d = true
        · rw [if_pos hd]
          refine List.chain'_cons'.2 ⟨?_, ?_⟩
          · intro y hy
            rcases hdw : rest.dropWhile isSepC with _ | ⟨e, t'⟩
            · rw [hdw] at hy
              cases fuel <;> cases hy
            · rw [hdw] at hy
              have he : isSepC e = false := by
                have := head?_dropWhile_not (p := isSepC) (l := rest)
                  (by rw [hdw]; rfl)
                exact this
              rw [collapseRunsF_head_of_not he] at hy
              cases hy
              exact Or.inr he
          · refine ih _ ?_
            have := length_dropWhile_le' isSepC rest
            simp only [List.length_cons] at hs
            omega
        · rw [if_neg hd]
          refine List.chain'_cons'.2 ⟨?_, ?_⟩
          · intro y hy
            rw [collapseRunsF_head_of_not (by rw [Bool.not_eq_true] at hd; exact hd)]
              at hy
            cases hy
            rw [Bool.not_eq_true] at hd
            exact Or.inr hd
          · refine ih _ ?_
            simp only [List.length_cons] at hs ⊢
            omega
      · rw [if_neg hc]
        rw [Bool.not_eq_true] at hc
        refine List.chain'_cons'.2 ⟨?_, ?_⟩
        · intro y _
          exact Or.inl hc
        · refine ih _ ?_
          simp only [List.length_cons] at hs ⊢
          omega

theorem collapseRunsF_id :
    ∀ (fuel : Nat) {s : List Char},
    List.Chain' (fun a b => isSepC a = false ∨ isSepC b = false) s →
    collapseRunsF fuel s = s := by
  intro fuel
  induction fuel with
  | zero =>
    intro s _
    match s with
    | [] => rfl
    | [c] => rfl
    | c :: d :: rest => rfl
  | succ fuel ih =>
    intro s hs
    match s with
    | [] => rfl
    | [c] => rfl
    | c :: d :: rest =>
      rcases List.chain'_cons.1 hs with ⟨hcd, htail⟩
      simp only [collapseRunsF]
      by_cases hc : isSepC c = true
      · have hd : isSepC d = false := by
          rcases hcd with h | h
          · rw [hc] at h; cases h
          · exact h
        rw [if_pos hc, if_neg (by rw [hd]; simp), ih htail]
      · rw [if_neg hc, ih htail]

theorem collapseRunsF_subset :
    ∀ (fuel : Nat) (s : List Char) (c : Char),
    c ∈ collapseRunsF fuel s → c ∈ s ∨ c = ' ' := by
  intro fuel
  induction fuel with
  | zero =>
    intro s c hc
    match s with
    | [] => cases hc
    | [a] => exact Or.inl hc
    | a :: d :: rest => exact Or.inl hc
  | succ fuel ih =>
    intro s c hc
    match s with
    | [] => cases hc
    | [a] => exact Or.inl hc
    | a :: d :: rest =>
      simp only [collapseRunsF] at hc
      by_cases ha : isSepC a = true
      · rw [if_pos ha] at hc
        by_cases hd : isSepC d = true
        · rw [if_pos hd] at hc
          rcases List.mem_cons.1 hc with rfl | hc2
          · exact Or.inr rfl
          · rcases ih _ c hc2 with hm | hm
            · exact Or.inl (List.mem_cons_of_mem _ (List.mem_cons_of_mem _
                ((List.dropWhile_suffix isSepC).subset hm)))
            · exact Or.inr hm
        · rw [if_neg hd] at hc
          rcases List.mem_cons.1 hc with rfl | hc2
          · exact Or.inl (List.mem_cons_self _ _)
          · rcases ih _ c hc2 with hm | hm
            · exact Or.inl (List.mem_cons_of_mem _ hm)
            · exact Or.inr hm
      · rw [if_neg ha] at hc
        rcases List.mem_cons.1 hc with rfl | hc2
        · exact Or.inl (List.mem_cons_self _ _)
        · rcases ih _ c hc2 with hm | hm
          · exact Or.inl (List.mem_cons_of_mem _ hm)
          · exact Or.inr hm

theorem markerMatch_none_of_head {c : Char} {rest : List Char}
    (h1 : c ≠ '(') (h2 : c ≠ Char.ofNat 123) (h3 : c ≠ '[') :
    markerMatch (c :: rest) = none := by
  simp only [markerMatch]
  rw [if_neg h1, if_neg h2, if_neg h3]

theorem removeMarkersF_succ_none {fuel : Nat} {a : Char} {rest : List Char}
    (hm : markerMatch (a :: rest) = none) :
    removeMarkersF (fuel + 1) (a :: rest) = a :: removeMarkersF fuel rest := by
  simp only [removeMarkersF, hm]

theorem removeMarkersF_succ_some {fuel : Nat} {a : Char} {rest : List Char}
    {n : Nat} (hm : markerMatch (a :: rest) = some n) :
    removeMarkersF (fuel + 1) (a :: rest) =
      removeMarkersF fuel (rest.drop (n - 1)) := by
  simp only [removeMarkersF, hm]

theorem removeMarkersF_id :
    ∀ (fuel : Nat) {s : List Char},
    (∀ c ∈ s, c ≠ '(' ∧ c ≠ Char.ofNat 123 ∧ c ≠ '[') →
    removeMarkersF fuel s = s := by
  intro fuel
  induction fuel with
  | zero =>
    intro s _
    match s with
    | [] => rfl
    | c :: r => rfl
  | succ fuel ih =>
    intro s hs
    match s with
    | [] => rfl
    | c :: rest =>
      have hc := hs c (List.mem_cons_self _ _)
      rw [removeMarkersF_succ_none (markerMatch_none_of_head hc.1 hc.2.1 hc.2.2)]
      rw [ih (fun d hd => hs d (List.mem_cons_of_mem _ hd))]

theorem removeMarkersF_subset :
    ∀ (fuel : Nat) (s : List Char) (c : Char),
    c ∈ removeMarkersF fuel s → c ∈ s := by
  intro fuel
  induction fuel with
  | zero =>
    intro s c hc
    match s with
    | [] => cases hc
    | a :: r => exact hc
  | succ fuel ih =>
    intro s c hc
    match s with
    | [] => cases hc
    | a :: rest =>
      rcases hm : markerMatch (a :: rest) with _ | n
      · rw [removeMarkersF_succ_none hm] at hc
        rcases List.mem_cons.1 hc with rfl | hc2
        · exact List.mem_cons_self _ _
        · exact List.mem_cons_of_mem _ (ih _ _ hc2)
      · rw [removeMarkersF_succ_some hm] at hc
        exact List.mem_cons_of_mem _ (List.drop_subset _ _ (ih _ _ hc))

theorem removeMarkers_id {s : List Char}
    (h : ∀ c ∈ s, c ≠ '(' ∧ c ≠ Char.ofNat 123 ∧ c ≠ '[') :
    removeMarkers s = s :=
  removeMarkersF_id _ h

theorem stripTrack_subset {s : List Char} : ∀ c ∈ stripTrack s, c ∈ s := by
  intro c hc
  simp only [stripTrack] at hc
  split at hc
  · exact hc
  · split at hc
    · exact List.drop_subset _ _ hc
    · split at hc
      · exact List.drop_subset _ _ hc
      · exact hc

theorem stripTrack_id {s : List Char}
    (h : ∀ c, s.head? = some c → isDig c = false) : stripTrack s = s := by
  cases s with
  | nil => rfl
  | cons a t =>
    have ha : isDig a = false := h a rfl
    simp [stripTrack, List.takeWhile_cons, ha]

theorem basename_id {p : List Char} (h : '/' ∉ p) : basename p = p := by
  unfold basename
  have hself : p.reverse.takeWhile (fun c => decide (c ≠ '/')) = p.reverse := by
    refine List.takeWhile_eq_self_iff.2 ?_
    intro a ha
    simp only [decide_eq_true_eq]
    intro he
    subst he
    exact h (List.mem_reverse.1 ha)
  rw [hself, List.reverse_reverse]

theorem splitextBase_id {n : List Char} (h : '.' ∉ n) :
    splitextBase n = (n, []) := by
  have hself : n.reverse.takeWhile (fun c => decide (c ≠ '.')) = n.reverse := by
    refine List.takeWhile_eq_self_iff.2 ?_
    intro a ha
    simp only [decide_eq_true_eq]
    intro he
    subst he
    exact h (List.mem_reverse.1 ha)
  simp only [splitextBase]
  rw [hself, List.length_reverse, if_pos rfl]

theorem splitextBase_fst_id {n : List Char} (h : '.' ∉ n) :
    (splitextBase n).1 = n := by
  rw [splitextBase_id h]

theorem stripPy_subset {s : List Char} : ∀ c ∈ stripPy s, c ∈ s := by
  intro c hc
  unfold stripPy trimRightPy trimLeftPy at hc
  rw [List.mem_reverse] at hc
  have h1 := (List.dropWhile_suffix isPySpace).subset hc
  rw [List.mem_reverse] at h1
  exact (List.dropWhile_suffix isPySpace).subset h1

theorem stripPy_head {w : List Char} {a : Char}
    (h : (stripPy w).head? = some a) : isPySpace a = false := by
  unfold stripPy trimRightPy at h
  have hs : (trimLeftPy w).reverse.dropWhile isPySpace <:+ (trimLeftPy w).reverse :=
    List.dropWhile_suffix isPySpace
  have hpre : ((trimLeftPy w).reverse.dropWhile isPySpace).reverse <+: trimLeftPy w := by
    have := List.reverse_prefix.2 hs
    rwa [List.reverse_reverse] at this
  have h2 : (trimLeftPy w).head? = some a := prefix_head hpre h
  unfold trimLeftPy at h2
  exact head?_dropWhile_not h2

theorem stripPy_last {w : List Char} {a : Char}
    (h : (stripPy w).getLast? = some a) : isPySpace a = false := by
  unfold stripPy trimRightPy at h
  rw [List.getLast?_reverse] at h
  exact head?_dropWhile_not h

theorem stripPy_id {s : List Char}
    (hh : ∀ a, s.head? = some a → isPySpace a = false)
    (hl : ∀ a, s.getLast? = some a → isPySpace a = false) : stripPy s = s := by
  unfold stripPy trimLeftPy trimRightPy
  have h2 : s.reverse.dropWhile isPySpace = s.reverse := by
    apply dropWhile_eq_self_of_head
    intro a ha
    rw [List.head?_reverse] at ha
    exact hl a ha
  rw [dropWhile_eq_self_of_head hh, h2, List.reverse_reverse]

theorem stripPy_chain' {R : Char → Char → Prop} (hsymm : ∀ a b, R a b → R b a)
    {s : List Char} (hs : List.Chain' R s) : List.Chain' R (stripPy s) := by
  unfold stripPy trimRightPy trimLeftPy
  have h1 : List.Chain' R (s.dropWhile isPySpace) :=
    hs.suffix (List.dropWhile_suffix isPySpace)
  have h2 : List.Chain' (fun a b => R b a) ((s.dropWhile isPySpace).reverse) := by
    rw [List.chain'_reverse]
    exact h1.imp (fun a b h => h)
  have h3 : List.Chain' (fun a b => R b a)
      ((s.dropWhile isPySpace).reverse.dropWhile isPySpace) :=
    h2.suffix (List.dropWhile_suffix isPySpace)
  rw [List.chain'_reverse]
  exact h3.imp (fun a b h => hsymm _ _ (hsymm _ _ h))

theorem normalize_no_slash (x : List Char) : '/' ∉ normalize_title x := by
  intro hmem
  unfold normalize_title at hmem
  rcases List.mem_map.1 hmem with ⟨d, hd, hld⟩
  have hd' : d = '/' := lowerC_eq_slash hld
  subst hd'
  have h1 := stripPy_subset _ hd
  rcases collapseRunsF_subset _ _ _ h1 with h2 | h2
  · have h3 := removeMarkersF_subset _ _ _ h2
    have h4 := stripTrack_subset _ h3
    have h5 := splitextBase_stem_subset h4
    exact basename_no_slash x h5
  · exact absurd h2 (by decide)

theorem collapseRuns_id {s : List Char}
    (h : List.Chain' (fun a b => isSepC a = false ∨ isSepC b = false) s) :
    collapseRuns s = s :=
  collapseRunsF_id _ h

theorem collapseRuns_chain' (s : List Char) :
    List.Chain' (fun a b => isSepC a = false ∨ isSepC b = false)
      (collapseRuns s) :=
  collapseRunsF_chain' _ _ le_rfl

set_option linter.constructorNameAsVariable false in
set_option maxHeartbeats 2000000 in
/-- C6 (amended): normalization is idempotent on every input whose
normalized key contains no period, no opening parenthesis, bracket or
brace, and does not begin with a decimal digit — for such inputs,
`normalize_title (normalize_title x) = normalize_title x`.  (The
counterexample theorem for this claim shows the unconditional statement is
false: a period in the key is re-split as an extension.) -/
theorem normalize_idempotent_conditional (x : List Char)
    (h1 : '.' ∉ normalize_title x)
    (h2 : '(' ∉ normalize_title x)
    (h3 : '[' ∉ normalize_title x)
    (h4 : Char.ofNat 123 ∉ normalize_title x)
    (h5 : ((normalize_title x).head?.all (fun c => !(isDig c))) = true) :
    normalize_title (normalize_title x) = normalize_title x := by
  set y := normalize_title x with hy
  have hslash : '/' ∉ y := by
    rw [hy]
    exact normalize_no_slash x
  have hfix : ∀ c ∈ y, lowerC c = c := by
    intro c hc
    rw [hy] at hc
    unfold normalize_title at hc
    rcases List.mem_map.1 hc with ⟨d, _, hld⟩
    rw [← hld]
    exact lowerC_idem d
  have hchain : List.Chain' (fun a b => isSepC a = false ∨ isSepC b = false) y := by
    rw [hy]
    unfold normalize_title asciiLower
    rw [List.chain'_map]
    have hc0 := collapseRuns_chain'
      (removeMarkers (stripTrack ((splitextBase (basename x)).1)))
    have hc1 := stripPy_chain'
      (R := fun a b => isSepC a = false ∨ isSepC b = false)
      (fun a b h => Or.symm h) hc0
    refine hc1.imp (fun a b h => ?_)
    rcases h with h | h
    · exact Or.inl (by rw [isSepC_lowerC]; exact h)
    · exact Or.inr (by rw [isSepC_lowerC]; exact h)
  have hhead : ∀ a, y.head? = some a → isPySpace a = false := by
    intro a ha
    rw [hy] at ha
    unfold normalize_title asciiLower at ha
    rw [List.head?_map] at ha
    rcases Option.map_eq_some'.1 ha with ⟨b, hb, rfl⟩
    rw [isPySpace_lowerC]
    exact stripPy_head hb
  have hlast : ∀ a, y.getLast? = some a → isPySpace a = false := by
    intro a ha
    rw [hy] at ha
    unfold normalize_title asciiLower at ha
    rw [← List.head?_reverse, ← List.map_reverse, List.head?_map] at ha
    rcases Option.map_eq_some'.1 ha with ⟨b, hb, rfl⟩
    rw [isPySpace_lowerC]
    rw [List.head?_reverse] at hb
    exact stripPy_last hb
  have hdig : ∀ c, y.head? = some c → isDig c = false := by
    intro c hc
    rw [hc] at h5
    simpa using h5
  have hmk : ∀ c ∈ y, c ≠ '(' ∧ c ≠ Char.ofNat 123 ∧ c ≠ '[' := by
    intro c hc
    exact ⟨fun he => h2 (he ▸ hc), fun he => h4 (he ▸ hc), fun he => h3 (he ▸ hc)⟩
  unfold normalize_title
  rw [basename_id hslash, splitextBase_fst_id h1]
  rw [stripTrack_id hdig, removeMarkers_id hmk, collapseRuns_id hchain,
    stripPy_id hhead hlast]
  unfold asciiLower
  exact map_id_of_fixed hfix

/-- Witness for the conditional idempotence: `"01 - Song.mp3"` normalizes
to `"song"`, which satisfies every side condition, and re-normalizing it
gives `"song"` again. -/
theorem normalize_idempotent_conditional_witness :
    ('.' ∉ normalize_title ('0' :: '1' :: ' ' :: '-' :: ' ' :: 'S' :: 'o' ::
        'n' :: 'g' :: '.' :: 'm' :: 'p' :: '3' :: [])) ∧
    normalize_title (normalize_title ('0' :: '1' :: ' ' :: '-' :: ' ' ::
        'S' :: 'o' :: 'n' :: 'g' :: '.' :: 'm' :: 'p' :: '3' :: [])) =
      normalize_title ('0' :: '1' :: ' ' :: '-' :: ' ' :: 'S' :: 'o' ::
        'n' :: 'g' :: '.' :: 'm' :: 'p' :: '3' :: []) :=
  ⟨by decide,
   normalize_idempotent_conditional _ (by decide) (by decide) (by decide)
     (by decide) (by decide)⟩

end MusicDedupe
